import Mathlib

/-!
# int2048: arbitrary-precision signed integers in base 10^9

A shallow embedding of `src/src/int2048.cpp` (namespace `sjtu`) and a verification
of its arithmetic, parsing and formatting.

Modelling conventions.
* Modelled from the spec: the class declaration (`include/int2048.h`) is not among the
  sources.  The spec's data model gives the two fields: `magnitudeDigits`, an ordered
  sequence of unsigned limbs, least significant first, and the boolean `isNegative`.
  They are the fields `digits` and `sign` that the source uses.  Limbs are `Nat`.
* `long long` and `int` temporaries that may become negative are `Int`; the places where
  a 64-bit wrap-around can happen carry an explicit `% 2^64`.
* A `std::string` is the list of its characters.
* Loops that push limbs in increasing index order are recursions over the limb lists;
  loops that update a buffer in place are recursions over the index with `List.set`.
  A `while` loop whose trip count is not syntactically bounded takes a fuel argument,
  and the lemmas below show that the fuel supplied by the caller is never exhausted.
-/

namespace sjtu

/-- The limb base `const int BASE = 1000000000`. -/
def BASE : Nat := 1000000000

/-- The number of decimal digits per limb, `const int BASE_DIGITS = 9`. -/
def BASE_DIGITS : Nat := 9

/-- The class `int2048`: limbs in base `BASE`, least significant first, and a sign flag
(`true` means negative). -/
structure int2048 where
  digits : List Nat
  sign : Bool
deriving DecidableEq, Repr

/-- The loop `while (digits.size() > 1 && digits.back() == 0) digits.pop_back();` of
`normalize`.  Every iteration removes a limb, so `digits.size()` iterations suffice. -/
def popZeros : Nat → List Nat → List Nat
  | 0, ds => ds
  | fuel + 1, ds =>
    if 1 < ds.length ∧ ds.getLast? = some 0 then popZeros fuel ds.dropLast else ds

/-- The method `int2048::normalize`. -/
def normalize (x : int2048) : int2048 :=
  let ds := popZeros x.digits.length x.digits
  let y : int2048 := if ds = [] then ⟨[0], false⟩ else ⟨ds, x.sign⟩
  if y.digits = [0] then ⟨y.digits, false⟩ else y

/-- The `for` loop of `compareAbs`, which walks both limb sequences from the most
significant limb down; the arguments are the limb sequences most significant first. -/
def compareLoop : List Nat → List Nat → Int
  | x :: xs, y :: ys => if x ≠ y then (if x < y then -1 else 1) else compareLoop xs ys
  | _, _ => 0

/-- The function `int2048::compareAbs`: `-1`, `0` or `1`. -/
def compareAbs (a b : int2048) : Int :=
  if a.digits.length ≠ b.digits.length then
    (if a.digits.length < b.digits.length then -1 else 1)
  else compareLoop a.digits.reverse b.digits.reverse

/-- The iterations of a carry loop that run after the operand limbs are used up:
`while (carry) { push_back(carry % BASE); carry /= BASE; }`.  The carry shrinks on every
iteration, so `carry` iterations suffice. -/
def carryLimbs : Nat → Nat → List Nat
  | 0, _ => []
  | fuel + 1, carry =>
    if carry = 0 then [] else (carry % BASE) :: carryLimbs fuel (carry / BASE)

/-- The iterations of the loop of `addAbs` that run once the limbs of `a` are used up, on
the limbs of `b` from index `i` on and the current carry. -/
def addLoopTail : List Nat → Nat → List Nat
  | [], carry => carryLimbs carry carry
  | y :: ys, carry => ((carry + y) % BASE) :: addLoopTail ys ((carry + y) / BASE)

/-- The loop of `addAbs`: `for (i = 0; i < max(a.size(), b.size()) || carry; i++)`, on the
limbs of `a` and `b` from index `i` on and the current carry. -/
def addLoop : List Nat → List Nat → Nat → List Nat
  | [], b, carry => addLoopTail b carry
  | x :: xs, [], carry => ((carry + x) % BASE) :: addLoop xs [] ((carry + x) / BASE)
  | x :: xs, y :: ys, carry =>
    ((carry + x + y) % BASE) :: addLoop xs ys ((carry + x + y) / BASE)

/-- The function `int2048::addAbs`. -/
def addAbs (a b : int2048) : int2048 :=
  ⟨addLoop a.digits b.digits 0, false⟩

/-- The loop of `subAbs`, on the limbs of `a` and `b` from index `i` on and the current
borrow.  `diff` is a `long long`; the limb stored is `diff` when it is not negative. -/
def subLoop : List Nat → List Nat → Int → List Nat
  | [], _, _ => []
  | x :: xs, b, borrow =>
    let diff : Int := (x : Int) - borrow - (match b with | [] => 0 | y :: _ => (y : Int))
    if diff < 0 then (diff + (BASE : Int)).toNat :: subLoop xs b.tail 1
    else diff.toNat :: subLoop xs b.tail 0

/-- The function `int2048::subAbs` (the caller guarantees `|a| >= |b|`). -/
def subAbs (a b : int2048) : int2048 :=
  let r := normalize ⟨subLoop a.digits b.digits 0, false⟩
  { r with sign := false }

/-- Reduction of an integer to the range of a 64-bit signed `long long`. -/
def wrap64 (x : Int) : Int := (x + 2 ^ 63) % 2 ^ 64 - 2 ^ 63

/-- The loop `while (x > 0) { digits.push_back(x % BASE); x /= BASE; }` of the
constructor from `long long`. -/
def limbsOf : Nat → Int → List Nat
  | 0, _ => []
  | fuel + 1, x => if 0 < x then (x % (BASE : Int)).toNat :: limbsOf fuel (x / (BASE : Int)) else []

/-- The constructor `int2048::int2048(long long x)`. -/
def ofLongLong (x : Int) : int2048 :=
  let sign : Bool := decide (x < 0)
  if x = 0 then ⟨[0], sign⟩
  else
    let x1 := if sign then wrap64 (-x) else x
    ⟨limbsOf x1.toNat x1, sign⟩

/-- The friend function `add` (and `operator+`, which returns `add(a, b)`). -/
def add (a b : int2048) : int2048 :=
  if a.sign = b.sign then
    { addAbs a b with sign := a.sign }
  else
    let cmp := compareAbs a b
    if cmp = 0 then ofLongLong 0
    else if 0 < cmp then { subAbs a b with sign := a.sign }
    else { subAbs b a with sign := b.sign }

/-- The friend function `minus` (and `operator-`, which returns `minus(a, b)`). -/
def minus (a b : int2048) : int2048 :=
  let neg_b : int2048 := { b with sign := !b.sign }
  let neg_b : int2048 := if neg_b.digits = [0] then { neg_b with sign := false } else neg_b
  add a neg_b

/-- The unary `int2048::operator-`. -/
def operator_neg (a : int2048) : int2048 :=
  if ¬ (a.digits = [0]) then { a with sign := !a.sign } else a

/-- The binary `operator+`. -/
def operator_add (a b : int2048) : int2048 := add a b

/-- The binary `operator-`. -/
def operator_sub (a b : int2048) : int2048 := minus a b

/-- The inner loop of the schoolbook multiplication,
`for (j = 0; j < b.size() || carry; j++)`, for the limb `ai` of `a` at index `i`.
An access `result.digits[i + j]` outside the buffer is undefined in the source; the model
reads `0` and drops the store there.  The fuel is the buffer size: a run that needs
more iterations has left the buffer. -/
def mulInner (ai : Nat) (b : List Nat) (i : Nat) : Nat → Nat → Nat → List Nat → List Nat
  | 0, _, _, res => res
  | fuel + 1, j, carry, res =>
    if j < b.length ∨ carry ≠ 0 then
      let cur := res.getD (i + j) 0 + carry + (if j < b.length then ai * b.getD j 0 else 0)
      mulInner ai b i fuel (j + 1) (cur / BASE) (res.set (i + j) (cur % BASE))
    else res

/-- The outer loop `for (i = 0; i < a.size(); i++)` of the schoolbook multiplication, on
the limbs of `a` from index `i` on. -/
def mulOuter (b : List Nat) : List Nat → Nat → List Nat → List Nat
  | [], _, res => res
  | ai :: rest, i, res => mulOuter b rest (i + 1) (mulInner ai b i res.length 0 0 res)

/-- The inner loop of the schoolbook multiplication once more, now recording every
iteration: the index `i + j` of the access `result.digits[i + j]` and the value `cur`.
The buffer is updated as in `mulInner`.  When the fuel is used up while the loop
condition still holds, the access that the next iteration makes is recorded too, so
that a bound on all recorded indices also shows that the fuel was enough. -/
def mulInnerTraced (ai : Nat) (b : List Nat) (i : Nat) :
    Nat → Nat → Nat → List Nat → List (Nat × Nat) × List Nat
  | 0, j, carry, res =>
    if j < b.length ∨ carry ≠ 0 then
      let cur := res.getD (i + j) 0 + carry + (if j < b.length then ai * b.getD j 0 else 0)
      ([(i + j, cur)], res)
    else ([], res)
  | fuel + 1, j, carry, res =>
    if j < b.length ∨ carry ≠ 0 then
      let cur := res.getD (i + j) 0 + carry + (if j < b.length then ai * b.getD j 0 else 0)
      let r := mulInnerTraced ai b i fuel (j + 1) (cur / BASE) (res.set (i + j) (cur % BASE))
      ((i + j, cur) :: r.1, r.2)
    else ([], res)

/-- The outer loop of the schoolbook multiplication, recording the iterations of all
its inner loops. -/
def mulOuterTraced (b : List Nat) : List Nat → Nat → List Nat → List (Nat × Nat) × List Nat
  | [], _, res => ([], res)
  | ai :: rest, i, res =>
    let r := mulInnerTraced ai b i res.length 0 0 res
    let r2 := mulOuterTraced b rest (i + 1) r.2
    (r.1 ++ r2.1, r2.2)

/-- The base case of `multiplyAbs`: schoolbook multiplication into a buffer of
`a.size() + b.size()` zero limbs. -/
def schoolbook (a b : int2048) : int2048 :=
  let buf := List.replicate (a.digits.length + b.digits.length) 0
  let r := normalize ⟨mulOuter b.digits a.digits 0 buf, false⟩
  { r with sign := false }

/-- The constant `KARATSUBA_THRESHOLD` of `multiplyAbs`. -/
def KARATSUBA_THRESHOLD : Nat := 50

/-- The lines `z.digits.insert(z.digits.begin(), 0)` repeated `k` times and the
following `addAbs(result, z)`, guarded by `z.digits.size() > 1 || z.digits[0] != 0`. -/
def addShifted (result z : int2048) (k : Nat) : int2048 :=
  if 1 < z.digits.length ∨ z.digits.headD 0 ≠ 0 then
    addAbs result { z with digits := List.replicate k 0 ++ z.digits }
  else result

/-- The low part `a0` (or `b0`) of the Karatsuba split after its `normalize()`: the limbs
below index `min(mid, size)`. -/
def lowPart (a : int2048) (mid : Nat) : int2048 :=
  normalize ⟨a.digits.take (min mid a.digits.length), false⟩

/-- The high part `a1` (or `b1`) of the Karatsuba split after its `normalize()`: the limbs
from index `mid` on when there are any.  Otherwise `push_back(0)` on the
default-constructed value, whose limbs are `[0]`, builds `[0, 0]`. -/
def highPart (a : int2048) (mid : Nat) : int2048 :=
  normalize ⟨if mid < a.digits.length then a.digits.drop mid else [0, 0], false⟩

/-- The end of the Karatsuba case, from the three products `z0 = a0 * b0`,
`z2 = a1 * b1` and `z1 = (a0 + a1) * (b0 + b1)`. -/
def combine (z0 z2 z1 : int2048) (mid : Nat) : int2048 :=
  let z1 := subAbs z1 z0
  let z1 := subAbs z1 z2
  let result := addShifted z0 z1 mid
  let result := addShifted result z2 (2 * mid)
  let r := normalize result
  { r with sign := false }

/-- The function `int2048::multiplyAbs` with a bound `fuel` on the recursion depth;
`none` when the bound is reached. -/
def multiplyAbsAux : Nat → int2048 → int2048 → Option int2048
  | 0, a, b =>
    if a.digits.length ≤ KARATSUBA_THRESHOLD ∨ b.digits.length ≤ KARATSUBA_THRESHOLD then
      some (schoolbook a b)
    else none
  | fuel + 1, a, b =>
    if a.digits.length ≤ KARATSUBA_THRESHOLD ∨ b.digits.length ≤ KARATSUBA_THRESHOLD then
      some (schoolbook a b)
    else
      let mid := max a.digits.length b.digits.length / 2
      let a0 := lowPart a mid
      let a1 := highPart a mid
      let b0 := lowPart b mid
      let b1 := highPart b mid
      match multiplyAbsAux fuel a0 b0, multiplyAbsAux fuel a1 b1,
          multiplyAbsAux fuel (addAbs a0 a1) (addAbs b0 b1) with
      | some z0, some z2, some z1 => some (combine z0 z2 z1 mid)
      | _, _, _ => none

/-- The function `multiplyAbsAux` with the constant `KARATSUBA_THRESHOLD` replaced by a
parameter `threshold`, to compare the results for different thresholds. -/
def multiplyAbsAt (threshold : Nat) : Nat → int2048 → int2048 → Option int2048
  | 0, a, b =>
    if a.digits.length ≤ threshold ∨ b.digits.length ≤ threshold then some (schoolbook a b)
    else none
  | fuel + 1, a, b =>
    if a.digits.length ≤ threshold ∨ b.digits.length ≤ threshold then some (schoolbook a b)
    else
      let mid := max a.digits.length b.digits.length / 2
      let a0 := lowPart a mid
      let a1 := highPart a mid
      let b0 := lowPart b mid
      let b1 := highPart b mid
      match multiplyAbsAt threshold fuel a0 b0, multiplyAbsAt threshold fuel a1 b1,
          multiplyAbsAt threshold fuel (addAbs a0 a1) (addAbs b0 b1) with
      | some z0, some z2, some z1 => some (combine z0 z2 z1 mid)
      | _, _, _ => none

/-- The function `int2048::multiplyAbs`.  Every recursive call is on operands with a
smaller maximal limb count, so the maximal limb count bounds the recursion depth
(`multiplyAbsAux_spec`). -/
def multiplyAbs (a b : int2048) : int2048 :=
  (multiplyAbsAux (max a.digits.length b.digits.length) a b).getD ⟨[], false⟩

/-- The binary `operator*`. -/
def operator_mul (a b : int2048) : int2048 :=
  let result := multiplyAbs a b
  let result := { result with sign := (a.sign != b.sign) }
  if result.digits = [0] then { result with sign := false } else result

/-- The loop "Multiply b_abs by mid" of `operator/`: the limbs of `temp` are written in
increasing index order, on the limbs of `b_abs` from index `j` on and the carry. -/
def mulLimbLoop (m : Nat) : List Nat → Nat → List Nat
  | [], carry => carryLimbs carry carry
  | y :: ys, carry => ((carry + y * m) % BASE) :: mulLimbLoop m ys ((carry + y * m) / BASE)

/-- The value `temp` of `operator/` after its `normalize()`: `b_abs` times the `int` `m`. -/
def mulLimb (b : int2048) (m : Nat) : int2048 :=
  normalize ⟨mulLimbLoop m b.digits 0, false⟩

/-- The binary search `while (left < right)` of `operator/`; it returns `left`.  The
interval shrinks on every iteration, so `right - left` iterations suffice. -/
def searchLimb (b current : int2048) : Nat → Nat → Nat → Nat
  | 0, left, _ => left
  | fuel + 1, left, right =>
    if left < right then
      let mid := (left + right + 1) / 2
      if 0 ≤ compareAbs current (mulLimb b mid) then searchLimb b current fuel mid right
      else searchLimb b current fuel left (mid - 1)
    else left

/-- The long-division loop `for (i = a_abs.size() - 1; i >= 0; i--)` of `operator/`, on
the limbs of `a_abs` not yet consumed (most significant first), the running remainder
`current` and the limbs of `result` already written (from index `i + 1` on).  It returns
the limbs of `result` and the final `current`. -/
def divLoop (b : int2048) : List Nat → int2048 → List Nat → List Nat × int2048
  | [], current, res => (res, current)
  | ai :: rest, current, res =>
    let current := normalize { current with digits := ai :: current.digits }
    let left := searchLimb b current (BASE - 1) 0 (BASE - 1)
    let temp := mulLimb b left
    divLoop b rest (subAbs current temp) (left :: res)

/-- One record per iteration of the long-division loop: `current` after the limb is
prepended and normalized, the quotient limb `left` that is recorded, and `current`
after the subtraction. -/
structure DivStep where
  before : int2048
  limb : Nat
  after : int2048

/-- The iterations of the long-division loop `divLoop`, in the order in which they run. -/
def divTrace (b : int2048) : List Nat → int2048 → List DivStep
  | [], _ => []
  | ai :: rest, current =>
    let current := normalize { current with digits := ai :: current.digits }
    let left := searchLimb b current (BASE - 1) 0 (BASE - 1)
    let temp := mulLimb b left
    ⟨current, left, subAbs current temp⟩ :: divTrace b rest (subAbs current temp)

/-- The long-division part of `operator/`: the loop over the limbs of `a_abs`, started
with an empty `current`, and the `result.normalize()` that follows it. -/
def longDivision (a_abs b_abs : int2048) : int2048 :=
  normalize ⟨(divLoop b_abs a_abs.digits.reverse ⟨[], false⟩ []).1, false⟩

/-- The end of `operator/`, "Check if we need to adjust for floor division": when the
signs differ and `result * b_abs` is not `a_abs`, the quotient is incremented; then the
sign is set and the sign of zero is fixed. -/
def floorAdjust (result a_abs b_abs : int2048) (result_sign : Bool) : int2048 :=
  let result : int2048 :=
    if result_sign then
      let check := operator_mul result b_abs
      let result :=
        if compareAbs check a_abs ≠ 0 then operator_add result (ofLongLong 1) else result
      { result with sign := true }
    else { result with sign := false }
  if result.digits = [0] then { result with sign := false } else result

/-- The binary `operator/`. -/
def operator_div (a b : int2048) : int2048 :=
  let result_sign : Bool := (a.sign != b.sign)
  let a_abs : int2048 := { a with sign := false }
  let b_abs : int2048 := { b with sign := false }
  if compareAbs a_abs b_abs < 0 then
    if result_sign then ofLongLong (-1) else ofLongLong 0
  else floorAdjust (longDivision a_abs b_abs) a_abs b_abs result_sign

/-- The binary `operator%`. -/
def operator_mod (a b : int2048) : int2048 :=
  let quotient := operator_div a b
  operator_sub a (operator_mul quotient b)

/-- The `operator==`. -/
def operator_eq (a b : int2048) : Bool :=
  a.sign == b.sign && a.digits == b.digits

/-- The `operator!=`. -/
def operator_ne (a b : int2048) : Bool := !(operator_eq a b)

/-- The `operator<`. -/
def operator_lt (a b : int2048) : Bool :=
  if a.sign ≠ b.sign then a.sign
  else
    let cmp := compareAbs a b
    if a.sign then decide (0 < cmp) else decide (cmp < 0)

/-- The `operator>`. -/
def operator_gt (a b : int2048) : Bool := operator_lt b a

/-- The `operator<=`. -/
def operator_le (a b : int2048) : Bool := !(operator_gt a b)

/-- The `operator>=`. -/
def operator_ge (a b : int2048) : Bool := !(operator_lt a b)

/-- The value `s[j] - '0'` of a character as an `int`. -/
def charValue (c : Char) : Int := (c.toNat : Int) - 48

/-- The inner loop of `read`, `num = num * 10 + (s[j] - '0')`, over the characters of one
chunk.  `num` is an `int`: it stays below `10^9` when the characters are digits. -/
def readChunk (cs : List Char) : Int :=
  cs.foldl (fun num c => num * 10 + charValue c) 0

/-- The loop `for (i = s.length(); i > start; i -= BASE_DIGITS)` of `read`.  The index
`i` is an `int` that may drop below zero on the last step, which ends the loop; the
truncated subtraction ends it in the same way, since `start >= 0`.  Every iteration
lowers `i`, so `s.length()` iterations suffice.  The limb stored is `num` when it is not
negative. -/
def readLoop (s : List Char) (start : Nat) : Nat → Nat → List Nat
  | 0, _ => []
  | fuel + 1, i =>
    if start < i then
      let len := min BASE_DIGITS (i - start)
      (readChunk ((s.drop (i - len)).take len)).toNat ::
        readLoop s start fuel (i - BASE_DIGITS)
    else []

/-- The method `int2048::read` (and the constructor from `std::string`, which calls it).
On the empty string `s[0]` is the terminating null character. -/
def read (s : List Char) : int2048 :=
  let sign : Bool := decide (s.head? = some '-')
  let start : Nat := if s.head? = some '-' then 1 else if s.head? = some '+' then 1 else 0
  normalize ⟨readLoop s start s.length s.length, sign⟩

/-- The decimal digit values of `n`, least significant first, without leading zeros
(one digit `0` for `n = 0`); `n + 1` is enough fuel. -/
def decimalDigits : Nat → Nat → List Nat
  | 0, _ => []
  | fuel + 1, n => (n % 10) :: (if n / 10 = 0 then [] else decimalDigits fuel (n / 10))

/-- The character of a decimal digit value. -/
def digitChar (d : Nat) : Char := Char.ofNat (48 + d)

/-- What `os << n` writes for a non-negative `int` `n` when no field width is set: the
decimal numeral of `n`. -/
def showNat (n : Nat) : List Char :=
  ((decimalDigits (n + 1) n).reverse).map digitChar

/-- What `os << n` writes after `os.width(w); os.fill('0')`: the numeral of `n` padded on
the left with `'0'` up to `w` characters. -/
def showPadded (w n : Nat) : List Char :=
  List.replicate (w - (showNat n).length) '0' ++ showNat n

/-- The `operator<<` (the method `print` has the same body): the characters written.
`digits.back()` on an empty limb sequence is undefined in the source; the model
reads `0` there. -/
def operator_out (num : int2048) : List Char :=
  (if num.sign then ['-'] else []) ++ showNat (num.digits.getLastD 0) ++
    ((num.digits.dropLast.reverse).map (showPadded BASE_DIGITS)).flatten

/-- The two errors that the spec names. -/
inductive Error where
  | ParseError
  | DivisionByZeroError
deriving DecidableEq, Repr

/-- The outcome of evaluating `a / b`: `operator/` has no `throw` and no test of the
divisor, so every evaluation ends by returning its result. -/
def div_outcome (a b : int2048) : Except Error int2048 := Except.ok (operator_div a b)

/-- The outcome of evaluating `a % b`: `operator%` has no `throw` either. -/
def mod_outcome (a b : int2048) : Except Error int2048 := Except.ok (operator_mod a b)

/-- The natural number that a limb sequence denotes in base `BASE`. -/
def mag : List Nat → Nat
  | [] => 0
  | d :: ds => d + BASE * mag ds

/-- The integer that an `int2048` denotes. -/
def value (x : int2048) : Int :=
  if x.sign then -(mag x.digits : Int) else (mag x.digits : Int)

/-- Every limb is below `BASE`. -/
def bounded (ds : List Nat) : Prop := ∀ d ∈ ds, d < BASE

/-- A limb sequence in canonical form: not empty, limbs below `BASE`, and no most
significant zero limb unless it is the single limb `[0]`. -/
def normal (ds : List Nat) : Prop :=
  ds ≠ [] ∧ bounded ds ∧ (1 < ds.length → ds.getLast? ≠ some 0)

/-- The canonical form of the data model: a canonical limb sequence, and zero is not
negative. -/
def canonical (x : int2048) : Prop :=
  normal x.digits ∧ (x.digits = [0] → x.sign = false)

instance (ds : List Nat) : Decidable (bounded ds) := by
  unfold bounded; infer_instance

instance (ds : List Nat) : Decidable (normal ds) := by
  unfold normal; infer_instance

instance (x : int2048) : Decidable (canonical x) := by
  unfold canonical; infer_instance

/-- The three-way comparison of two natural numbers, as `-1`, `0` or `1`. -/
def cmpNat (m n : Nat) : Int := if m < n then -1 else if m = n then 0 else 1

/-- The integer `q` is the floor of the exact quotient `a / b`, for `b` not zero:
`q <= a / b < q + 1`, with the inequalities multiplied by `b`. -/
def isFloorQuotient (a b q : Int) : Prop :=
  (0 < b → b * q ≤ a ∧ a < b * (q + 1)) ∧ (b < 0 → b * (q + 1) < a ∧ a ≤ b * q)

/-- The remainder `r` lies between zero and the divisor `b`, zero included and `b`
excluded. -/
def inRemainderRange (b r : Int) : Prop :=
  (0 < b → 0 ≤ r ∧ r < b) ∧ (b < 0 → b < r ∧ r ≤ 0)

/-- Negation as the spec words it: flip the sign unless the value is zero. -/
def negate (x : int2048) : int2048 :=
  if value x = 0 then x else { x with sign := !x.sign }

/-- The canonical zero. -/
def zero : int2048 := ⟨[0], false⟩

/-- The text after the optional leading sign of a decimal string. -/
def body (s : List Char) : List Char :=
  match s with
  | [] => []
  | c :: t => if c = '-' ∨ c = '+' then t else c :: t

/-- The character is one of `'0'` to `'9'`. -/
def isDecimalDigit (c : Char) : Prop := 48 ≤ c.toNat ∧ c.toNat ≤ 57

instance (c : Char) : Decidable (isDecimalDigit c) := by
  unfold isDecimalDigit; infer_instance

/-- A valid decimal string: an optional `'+'` or `'-'`, then one or more decimal digits. -/
def validDecimal (s : List Char) : Prop :=
  body s ≠ [] ∧ ∀ c ∈ body s, isDecimalDigit c

instance (s : List Char) : Decidable (validDecimal s) := by
  unfold validDecimal; infer_instance

/-- The natural number that a string of decimal digits denotes (most significant digit
first). -/
def decimalValue (cs : List Char) : Nat :=
  cs.foldl (fun n c => n * 10 + (c.toNat - 48)) 0

/-- The integer that a decimal string denotes. -/
def denote (s : List Char) : Int :=
  if s.head? = some '-' then -(decimalValue (body s) : Int) else (decimalValue (body s) : Int)

/-- The canonical decimal numeral of an integer: a `'-'` exactly when it is negative,
then the decimal digits of its absolute value, most significant first, without leading
zeros, and `0` written as the single digit `'0'`. -/
def numeral (z : Int) : List Char :=
  (if z < 0 then ['-'] else []) ++
    (if z = 0 then ['0'] else ((Nat.digits 10 z.natAbs).reverse).map digitChar)

/-! ### Limb sequences and their values -/

theorem BASE_pos : 0 < BASE := by decide

theorem mag_append (xs ys : List Nat) :
    mag (xs ++ ys) = mag xs + BASE ^ xs.length * mag ys := by
  induction xs with
  | nil => simp [mag]
  | cons x xs ih =>
    show x + BASE * mag (xs ++ ys) = (x + BASE * mag xs) + BASE ^ (xs.length + 1) * mag ys
    rw [ih, pow_succ]
    ring

theorem bounded_nil : bounded [] := by
  intro d hd; cases hd

theorem bounded_cons {d : Nat} {ds : List Nat} :
    bounded (d :: ds) ↔ d < BASE ∧ bounded ds := by
  simp [bounded]

theorem bounded_append {xs ys : List Nat} :
    bounded (xs ++ ys) ↔ bounded xs ∧ bounded ys := by
  simp only [bounded, List.mem_append]
  constructor
  · intro h
    exact ⟨fun d hd => h d (Or.inl hd), fun d hd => h d (Or.inr hd)⟩
  · rintro ⟨h1, h2⟩ d (hd | hd)
    · exact h1 d hd
    · exact h2 d hd

theorem mag_lt_pow {ds : List Nat} (h : bounded ds) : mag ds < BASE ^ ds.length := by
  induction ds with
  | nil => simp [mag]
  | cons d ds ih =>
    have hd := (bounded_cons.1 h).1
    have := ih (bounded_cons.1 h).2
    simp only [mag, List.length_cons, pow_succ]
    nlinarith

theorem mag_replicate_zero (k : Nat) : mag (List.replicate k 0) = 0 := by
  induction k with
  | zero => rfl
  | succ k ih => simp [List.replicate_succ, mag, ih]

theorem eq_dropLast_append_zero {ds : List Nat} (h : ds.getLast? = some 0) :
    ds = ds.dropLast ++ [0] := by
  have hne : ds ≠ [] := by
    rintro rfl; simp at h
  have h2 := List.dropLast_append_getLast hne
  rw [List.getLast?_eq_getLast _ hne] at h
  injection h with h
  rw [h] at h2
  exact h2.symm

theorem popZeros_spec (fuel : Nat) (ds : List Nat) (hf : ds.length ≤ fuel) :
    mag (popZeros fuel ds) = mag ds ∧
    (bounded ds → bounded (popZeros fuel ds)) ∧
    ¬ (1 < (popZeros fuel ds).length ∧ (popZeros fuel ds).getLast? = some 0) ∧
    (ds ≠ [] → popZeros fuel ds ≠ []) ∧
    (popZeros fuel ds).length ≤ ds.length := by
  induction fuel generalizing ds with
  | zero =>
    have : ds = [] := List.length_eq_zero.1 (Nat.le_zero.1 hf)
    subst this
    simp [popZeros]
  | succ fuel ih =>
    unfold popZeros
    split
    · rename_i hc
      have hd := eq_dropLast_append_zero hc.2
      have hlen : ds.dropLast.length = ds.length - 1 := List.length_dropLast ds
      have hih := ih ds.dropLast (by omega)
      obtain ⟨h1, h2, h3, h4, h5⟩ := hih
      refine ⟨?_, ?_, h3, ?_, by omega⟩
      · rw [h1]
        conv_rhs => rw [hd, mag_append]
        simp [mag]
      · intro hb
        apply h2
        rw [hd] at hb
        exact (bounded_append.1 hb).1
      · intro _
        apply h4
        intro h0
        rw [h0] at hlen
        simp at hlen
        omega
    · rename_i hc
      exact ⟨rfl, id, hc, id, le_refl _⟩

theorem normalize_digits_spec (x : int2048) :
    mag (normalize x).digits = mag x.digits ∧
    (bounded x.digits → normal (normalize x).digits) ∧
    (normalize x).digits.length ≤ max 1 x.digits.length ∧
    ((normalize x).digits = [0] → (normalize x).sign = false) ∧
    ((normalize x).sign = true → x.sign = true) ∧
    (x.sign = false → (normalize x).sign = false) := by
  obtain ⟨h1, h2, h3, h4, h5⟩ := popZeros_spec x.digits.length x.digits (le_refl _)
  unfold normalize
  by_cases he : popZeros x.digits.length x.digits = []
  · have hm : mag x.digits = 0 := by rw [← h1, he]; rfl
    simp [he, hm, mag, normal, bounded, BASE]
  · simp only [he, if_false]
    by_cases hz : popZeros x.digits.length x.digits = [0]
    · simp only [hz, if_true]
      rw [← h1, hz]
      simp [mag, normal, bounded, BASE]
    · simp only [hz, if_false]
      refine ⟨h1, ?_, by omega, ?_, ?_, ?_⟩
      · intro hb
        refine ⟨he, h2 hb, ?_⟩
        intro hl hlast
        exact h3 ⟨hl, hlast⟩
      · intro h; exact h.elim
      · exact id
      · exact id

theorem BASE_eq : BASE = 1000000000 := rfl

@[simp] theorem mag_nil : mag [] = 0 := rfl

@[simp] theorem mag_cons (d : Nat) (ds : List Nat) : mag (d :: ds) = d + BASE * mag ds := rfl

theorem normal_lower {ds : List Nat} (h : normal ds) (hl : 1 < ds.length) :
    BASE ^ (ds.length - 1) ≤ mag ds := by
  obtain ⟨hne, _, hlast⟩ := h
  have h2 := List.dropLast_append_getLast hne
  have h3 : ds.getLast hne ≠ 0 := by
    intro h0
    apply hlast hl
    rw [List.getLast?_eq_getLast _ hne, h0]
  have h4 : mag ds = mag ds.dropLast + BASE ^ ds.dropLast.length * mag [ds.getLast hne] := by
    conv_lhs => rw [← h2]
    exact mag_append _ _
  rw [h4, List.length_dropLast]
  simp only [mag_cons, mag_nil, Nat.mul_zero, Nat.add_zero]
  have : 1 ≤ ds.getLast hne := Nat.pos_of_ne_zero h3
  calc BASE ^ (ds.length - 1) = BASE ^ (ds.length - 1) * 1 := by ring
    _ ≤ BASE ^ (ds.length - 1) * ds.getLast hne := Nat.mul_le_mul_left _ this
    _ ≤ _ := Nat.le_add_left _ _

theorem last_ne_zero_of_lower {ds : List Nat} (hb : bounded ds) (_hl : 1 < ds.length)
    (h : BASE ^ (ds.length - 1) ≤ mag ds) : ds.getLast? ≠ some 0 := by
  intro h0
  have hd := eq_dropLast_append_zero h0
  have hb2 : bounded ds.dropLast := by
    rw [hd] at hb
    exact (bounded_append.1 hb).1
  have h1 := mag_lt_pow hb2
  have h2 : mag ds = mag ds.dropLast := by
    conv_lhs => rw [hd, mag_append]
    simp
  rw [List.length_dropLast] at h1
  omega

theorem normal_of_lower {ds : List Nat} (hne : ds ≠ []) (hb : bounded ds)
    (h : 1 < ds.length → BASE ^ (ds.length - 1) ≤ mag ds) : normal ds :=
  ⟨hne, hb, fun hl => last_ne_zero_of_lower hb hl (h hl)⟩

theorem bounded_inj (xs ys : List Nat) (hl : xs.length = ys.length) (hx : bounded xs)
    (hy : bounded ys) (h : mag xs = mag ys) : xs = ys := by
  induction xs generalizing ys with
  | nil =>
    cases ys with
    | nil => rfl
    | cons y ys => simp at hl
  | cons x xs ih =>
    cases ys with
    | nil => simp at hl
    | cons y ys =>
      have hx1 := bounded_cons.1 hx
      have hy1 := bounded_cons.1 hy
      simp only [mag_cons, BASE_eq] at h
      have hx2 := hx1.1
      have hy2 := hy1.1
      rw [BASE_eq] at hx2 hy2
      have e1 : x = y := by omega
      have e2 : mag xs = mag ys := by omega
      rw [e1, ih ys (by simpa using hl) hx1.2 hy1.2 e2]

theorem length_le_of_mag_le {xs ys : List Nat} (hx : normal xs) (hy : normal ys)
    (h : mag xs ≤ mag ys) : xs.length ≤ ys.length := by
  by_contra hc
  have hlt : ys.length < xs.length := Nat.lt_of_not_le hc
  have h1 := mag_lt_pow hy.2.1
  have hylen : 0 < ys.length := List.length_pos.2 hy.1
  have h2 := normal_lower hx (by omega)
  have h3 : BASE ^ ys.length ≤ BASE ^ (xs.length - 1) :=
    Nat.pow_le_pow_right BASE_pos (by omega)
  omega

theorem normal_inj {xs ys : List Nat} (hx : normal xs) (hy : normal ys)
    (h : mag xs = mag ys) : xs = ys := by
  have h1 := length_le_of_mag_le hx hy (le_of_eq h)
  have h2 := length_le_of_mag_le hy hx (le_of_eq h.symm)
  exact bounded_inj xs ys (le_antisymm h1 h2) hx.2.1 hy.2.1 h

theorem normal_zero : normal [0] := by decide

theorem mag_eq_zero_iff {ds : List Nat} (h : normal ds) : mag ds = 0 ↔ ds = [0] := by
  constructor
  · intro h0
    exact normal_inj h normal_zero (by simpa using h0)
  · rintro rfl
    rfl

theorem canonical_inj {x y : int2048} (hx : canonical x) (hy : canonical y)
    (h : value x = value y) : x = y := by
  obtain ⟨xd, xs⟩ := x
  obtain ⟨yd, ys⟩ := y
  obtain ⟨hx1, hx2⟩ := hx
  obtain ⟨hy1, hy2⟩ := hy
  simp only at hx1 hx2 hy1 hy2
  have hzx := mag_eq_zero_iff hx1
  have hzy := mag_eq_zero_iff hy1
  have hm : mag xd = mag yd := by
    unfold value at h
    simp only at h
    split at h <;> split at h <;> omega
  have hd : xd = yd := normal_inj hx1 hy1 hm
  subst hd
  have hs : xs = ys := by
    by_cases hz : mag xd = 0
    · rw [hx2 (hzx.1 hz), hy2 (hzx.1 hz)]
    · unfold value at h
      simp only at h
      cases xs <;> cases ys <;> simp at h <;> first | rfl | omega
  rw [hs]

theorem compareLoop_spec (xs ys : List Nat) (hl : xs.length = ys.length) (hx : bounded xs)
    (hy : bounded ys) : compareLoop xs ys = cmpNat (mag xs.reverse) (mag ys.reverse) := by
  induction xs generalizing ys with
  | nil =>
    cases ys with
    | nil => simp [compareLoop, cmpNat]
    | cons y ys => simp at hl
  | cons x xs ih =>
    cases ys with
    | nil => simp at hl
    | cons y ys =>
      have hx1 := bounded_cons.1 hx
      have hy1 := bounded_cons.1 hy
      have hl2 : xs.length = ys.length := by simpa using hl
      have hxr : bounded xs.reverse := fun d hd => hx1.2 d (List.mem_reverse.1 hd)
      have hyr : bounded ys.reverse := fun d hd => hy1.2 d (List.mem_reverse.1 hd)
      have bx := mag_lt_pow hxr
      have bY := mag_lt_pow hyr
      rw [List.length_reverse] at bx bY
      rw [← hl2] at bY
      simp only [List.reverse_cons, mag_append, mag_cons, mag_nil, List.length_reverse,
        Nat.mul_zero, Nat.add_zero, ← hl2]
      unfold compareLoop
      generalize BASE ^ xs.length = P at bx bY ⊢
      by_cases hxy : x = y
      · subst hxy
        simp only [ne_eq, not_true_eq_false, if_false]
        rw [ih ys hl2 hx1.2 hy1.2]
        unfold cmpNat
        split_ifs <;> omega
      · simp only [ne_eq, hxy, not_false_eq_true, if_true]
        unfold cmpNat
        by_cases hlt : x < y
        · have : P * (x + 1) ≤ P * y := Nat.mul_le_mul_left _ hlt
          have e : P * (x + 1) = P * x + P := by ring
          simp only [hlt, if_true]
          rw [if_pos (by omega)]
        · have hgt : y < x := by omega
          have : P * (y + 1) ≤ P * x := Nat.mul_le_mul_left _ hgt
          have e : P * (y + 1) = P * y + P := by ring
          simp only [hlt, if_false]
          rw [if_neg (by omega), if_neg (by omega)]

theorem compareAbs_spec {a b : int2048} (ha : normal a.digits) (hb : normal b.digits) :
    compareAbs a b = cmpNat (mag a.digits) (mag b.digits) := by
  unfold compareAbs
  by_cases hl : a.digits.length = b.digits.length
  · simp only [hl, ne_eq, not_true_eq_false, if_false]
    have hxr : bounded a.digits.reverse := fun d hd => ha.2.1 d (List.mem_reverse.1 hd)
    have hyr : bounded b.digits.reverse := fun d hd => hb.2.1 d (List.mem_reverse.1 hd)
    rw [compareLoop_spec _ _ (by simpa using hl) hxr hyr]
    simp
  · simp only [ne_eq, hl, not_false_eq_true, if_true]
    unfold cmpNat
    by_cases hlt : a.digits.length < b.digits.length
    · simp only [hlt, if_true]
      have : ¬ mag b.digits ≤ mag a.digits := fun hc =>
        absurd (length_le_of_mag_le hb ha hc) (by omega)
      rw [if_pos (by omega)]
    · simp only [hlt, if_false]
      have : ¬ mag a.digits ≤ mag b.digits := fun hc =>
        absurd (length_le_of_mag_le ha hb hc) (by omega)
      rw [if_neg (by omega), if_neg (by omega)]

/-! ### Magnitude addition and subtraction -/

theorem carryLimbs_spec (fuel carry : Nat) (h : carry ≤ fuel) :
    mag (carryLimbs fuel carry) = carry ∧ bounded (carryLimbs fuel carry) := by
  induction fuel generalizing carry with
  | zero =>
    have : carry = 0 := Nat.le_zero.1 h
    subst this
    exact ⟨rfl, bounded_nil⟩
  | succ fuel ih =>
    unfold carryLimbs
    split
    · rename_i h0
      subst h0
      exact ⟨rfl, bounded_nil⟩
    · rename_i h0
      have hdiv : carry / BASE ≤ fuel := by
        have : carry / BASE < carry := Nat.div_lt_self (Nat.pos_of_ne_zero h0) (by decide)
        omega
      obtain ⟨h1, h2⟩ := ih (carry / BASE) hdiv
      refine ⟨?_, ?_⟩
      · rw [mag_cons, h1]
        exact Nat.mod_add_div carry BASE
      · exact bounded_cons.2 ⟨Nat.mod_lt _ BASE_pos, h2⟩

theorem carryLimbs_small (carry : Nat) (h : carry ≤ 1) :
    carryLimbs carry carry = if carry = 0 then [] else [1] := by
  interval_cases carry <;> decide

theorem addLoopTail_spec (b : List Nat) (carry : Nat) :
    mag (addLoopTail b carry) = mag b + carry ∧ bounded (addLoopTail b carry) := by
  induction b generalizing carry with
  | nil =>
    unfold addLoopTail
    have := carryLimbs_spec carry carry (le_refl _)
    exact ⟨by simpa using this.1, this.2⟩
  | cons y ys ih =>
    unfold addLoopTail
    obtain ⟨h1, h2⟩ := ih ((carry + y) / BASE)
    refine ⟨?_, bounded_cons.2 ⟨Nat.mod_lt _ BASE_pos, h2⟩⟩
    rw [mag_cons, h1, mag_cons]
    have := Nat.mod_add_div (carry + y) BASE
    linarith

theorem addLoop_spec (a b : List Nat) (carry : Nat) :
    mag (addLoop a b carry) = mag a + mag b + carry ∧ bounded (addLoop a b carry) := by
  induction a generalizing b carry with
  | nil =>
    unfold addLoop
    obtain ⟨h1, h2⟩ := addLoopTail_spec b carry
    exact ⟨by rw [h1]; simp, h2⟩
  | cons x xs ih =>
    cases b with
    | nil =>
      unfold addLoop
      obtain ⟨h1, h2⟩ := ih [] ((carry + x) / BASE)
      refine ⟨?_, bounded_cons.2 ⟨Nat.mod_lt _ BASE_pos, h2⟩⟩
      rw [mag_cons, h1, mag_cons, mag_nil]
      have := Nat.mod_add_div (carry + x) BASE
      linarith
    | cons y ys =>
      unfold addLoop
      obtain ⟨h1, h2⟩ := ih ys ((carry + x + y) / BASE)
      refine ⟨?_, bounded_cons.2 ⟨Nat.mod_lt _ BASE_pos, h2⟩⟩
      rw [mag_cons, h1, mag_cons, mag_cons]
      have := Nat.mod_add_div (carry + x + y) BASE
      linarith

theorem addLoopTail_shape (b : List Nat) (carry : Nat) (hb : bounded b) (hc : carry ≤ 1) :
    ∃ low : List Nat, ∃ c : Nat, c ≤ 1 ∧ low.length = b.length ∧
      addLoopTail b carry = low ++ (if c = 0 then [] else [1]) := by
  induction b generalizing carry with
  | nil =>
    refine ⟨[], carry, hc, rfl, ?_⟩
    unfold addLoopTail
    rw [carryLimbs_small carry hc]
    rfl
  | cons y ys ih =>
    have hy := bounded_cons.1 hb
    have hy1 := hy.1
    rw [BASE_eq] at hy1
    have hc2 : (carry + y) / BASE ≤ 1 := by
      rw [BASE_eq]; omega
    obtain ⟨low, c, h1, h2, h3⟩ := ih ((carry + y) / BASE) hy.2 hc2
    refine ⟨((carry + y) % BASE) :: low, c, h1, ?_, ?_⟩
    · simp only [List.length_cons] at h2 ⊢
      omega
    · unfold addLoopTail
      rw [h3]
      rfl

/-- The sum of two limb sequences with limbs below `BASE` has `max` limbs, followed by at
most one carry limb `1`. -/
theorem addLoop_shape (a b : List Nat) (carry : Nat) (ha : bounded a) (hb : bounded b)
    (hc : carry ≤ 1) :
    ∃ low : List Nat, ∃ c : Nat, c ≤ 1 ∧ low.length = max a.length b.length ∧
      addLoop a b carry = low ++ (if c = 0 then [] else [1]) := by
  induction a generalizing b carry with
  | nil =>
    obtain ⟨low, c, h1, h2, h3⟩ := addLoopTail_shape b carry hb hc
    refine ⟨low, c, h1, by simpa using h2, ?_⟩
    unfold addLoop
    exact h3
  | cons x xs ih =>
    have hx := bounded_cons.1 ha
    have hx1 := hx.1
    rw [BASE_eq] at hx1
    cases b with
    | nil =>
      have hc2 : (carry + x) / BASE ≤ 1 := by
        rw [BASE_eq]; omega
      obtain ⟨low, c, h1, h2, h3⟩ := ih [] ((carry + x) / BASE) hx.2 bounded_nil hc2
      refine ⟨((carry + x) % BASE) :: low, c, h1, ?_, ?_⟩
      · simp only [List.length_cons, List.length_nil] at h2 ⊢
        omega
      · unfold addLoop
        rw [h3]
        rfl
    | cons y ys =>
      have hy := bounded_cons.1 hb
      have hy1 := hy.1
      rw [BASE_eq] at hy1
      have hc2 : (carry + x + y) / BASE ≤ 1 := by
        rw [BASE_eq]; omega
      obtain ⟨low, c, h1, h2, h3⟩ := ih ys ((carry + x + y) / BASE) hx.2 hy.2 hc2
      refine ⟨((carry + x + y) % BASE) :: low, c, h1, ?_, ?_⟩
      · simp only [List.length_cons] at h2 ⊢
        omega
      · unfold addLoop
        rw [h3]
        rfl

theorem addLoop_length_le (a b : List Nat) (ha : bounded a) (hb : bounded b) :
    (addLoop a b 0).length ≤ max a.length b.length + 1 := by
  obtain ⟨low, c, _, h2, h3⟩ := addLoop_shape a b 0 ha hb (by omega)
  rw [h3, List.length_append, h2]
  split <;> simp

theorem addLoop_normal (a b : List Nat) (ha : normal a) (hb : normal b) :
    normal (addLoop a b 0) := by
  obtain ⟨low, c, h1, h2, h3⟩ := addLoop_shape a b 0 ha.2.1 hb.2.1 (by omega)
  obtain ⟨hv, hbd⟩ := addLoop_spec a b 0
  have hla : 0 < a.length := List.length_pos.2 ha.1
  by_cases hc : c = 0
  · rw [hc] at h3
    simp only [if_true, List.append_nil] at h3
    have hlen : (addLoop a b 0).length = max a.length b.length := by rw [h3, h2]
    apply normal_of_lower
    · intro h0
      rw [h0] at hlen
      simp at hlen
      omega
    · exact hbd
    · intro hl
      rw [hlen] at hl ⊢
      rw [hv]
      by_cases hab : a.length ≤ b.length
      · rw [max_eq_right hab] at hl ⊢
        have := normal_lower hb hl
        omega
      · have hab2 : b.length ≤ a.length := by omega
        rw [max_eq_left hab2] at hl ⊢
        have := normal_lower ha hl
        omega
  · rw [if_neg hc] at h3
    refine ⟨?_, hbd, ?_⟩
    · rw [h3]; simp
    · intro _
      rw [h3, List.getLast?_concat]
      simp

theorem addAbs_spec (a b : int2048) :
    mag (addAbs a b).digits = mag a.digits + mag b.digits ∧ bounded (addAbs a b).digits ∧
      (addAbs a b).sign = false := by
  obtain ⟨h1, h2⟩ := addLoop_spec a.digits b.digits 0
  exact ⟨by simpa [addAbs] using h1, h2, rfl⟩

theorem addAbs_normal {a b : int2048} (ha : normal a.digits) (hb : normal b.digits) :
    normal (addAbs a b).digits :=
  addLoop_normal _ _ ha hb

/-- The borrow loop: with limbs below `BASE`, `b` no longer than `a` and a borrow of `0`
or `1`, the result has the length of `a` and satisfies the subtraction equation up to
a final borrow `out`. -/
theorem subLoop_spec (a b : List Nat) (borrow : Nat) (ha : bounded a) (hb : bounded b)
    (hl : b.length ≤ a.length) (hbw : borrow ≤ 1) :
    ∃ out : Nat, out ≤ 1 ∧
      mag (subLoop a b (borrow : Int)) + mag b + borrow = mag a + out * BASE ^ a.length ∧
      bounded (subLoop a b (borrow : Int)) ∧ (subLoop a b (borrow : Int)).length = a.length := by
  induction a generalizing b borrow with
  | nil =>
    have : b = [] := List.length_eq_zero.1 (Nat.le_zero.1 hl)
    subst this
    refine ⟨borrow, hbw, ?_, ?_, ?_⟩
    · simp [subLoop]
    · unfold subLoop; exact bounded_nil
    · simp [subLoop]
  | cons x xs ih =>
    have hx := bounded_cons.1 ha
    have hx1 := hx.1
    rw [BASE_eq] at hx1
    cases b with
    | nil =>
      unfold subLoop
      simp only [List.tail_nil, sub_zero]
      by_cases hd : (x : Int) - (borrow : Int) < 0
      · simp only [hd, if_true]
        obtain ⟨out, h1, h2, h3, h4⟩ := ih [] 1 hx.2 bounded_nil (by simp) (le_refl _)
        refine ⟨out, h1, ?_, ?_, ?_⟩
        · simp only [mag_cons, mag_nil, List.length_cons, pow_succ, Nat.cast_one] at h2 ⊢
          obtain ⟨t, ht⟩ : ∃ t, ((x : Int) - (borrow : Int) + (BASE : Int)).toNat = t := ⟨_, rfl⟩
          rw [ht]
          have e : t + borrow = x + BASE := by rw [BASE_eq] at ht ⊢; omega
          have h5 := congrArg (fun z => BASE * z) h2
          simp only at h5
          linarith
        · apply bounded_cons.2
          refine ⟨?_, by simpa using h3⟩
          rw [BASE_eq]; omega
        · simpa using h4
      · simp only [hd, if_false]
        obtain ⟨out, h1, h2, h3, h4⟩ := ih [] 0 hx.2 bounded_nil (by simp) (by omega)
        refine ⟨out, h1, ?_, ?_, ?_⟩
        · simp only [mag_cons, mag_nil, List.length_cons, pow_succ, Nat.cast_zero] at h2 ⊢
          obtain ⟨t, ht⟩ : ∃ t, ((x : Int) - (borrow : Int)).toNat = t := ⟨_, rfl⟩
          rw [ht]
          have e : t + borrow = x := by omega
          have h5 := congrArg (fun z => BASE * z) h2
          simp only at h5
          linarith
        · apply bounded_cons.2
          refine ⟨?_, by simpa using h3⟩
          rw [BASE_eq]; omega
        · simpa using h4
    | cons y ys =>
      have hy := bounded_cons.1 hb
      have hy1 := hy.1
      rw [BASE_eq] at hy1
      have hl2 : ys.length ≤ xs.length := by simpa using hl
      unfold subLoop
      simp only [List.tail_cons]
      by_cases hd : (x : Int) - (borrow : Int) - (y : Int) < 0
      · simp only [hd, if_true]
        obtain ⟨out, h1, h2, h3, h4⟩ := ih ys 1 hx.2 hy.2 hl2 (le_refl _)
        refine ⟨out, h1, ?_, ?_, ?_⟩
        · simp only [mag_cons, List.length_cons, pow_succ, Nat.cast_one] at h2 ⊢
          obtain ⟨t, ht⟩ :
              ∃ t, ((x : Int) - (borrow : Int) - (y : Int) + (BASE : Int)).toNat = t := ⟨_, rfl⟩
          rw [ht]
          have e : t + borrow + y = x + BASE := by rw [BASE_eq] at ht ⊢; omega
          have h5 := congrArg (fun z => BASE * z) h2
          simp only at h5
          linarith
        · apply bounded_cons.2
          refine ⟨?_, by simpa using h3⟩
          rw [BASE_eq]; omega
        · simpa using h4
      · simp only [hd, if_false]
        obtain ⟨out, h1, h2, h3, h4⟩ := ih ys 0 hx.2 hy.2 hl2 (by omega)
        refine ⟨out, h1, ?_, ?_, ?_⟩
        · simp only [mag_cons, List.length_cons, pow_succ, Nat.cast_zero] at h2 ⊢
          obtain ⟨t, ht⟩ : ∃ t, ((x : Int) - (borrow : Int) - (y : Int)).toNat = t := ⟨_, rfl⟩
          rw [ht]
          have e : t + borrow + y = x := by omega
          have h5 := congrArg (fun z => BASE * z) h2
          simp only at h5
          linarith
        · apply bounded_cons.2
          refine ⟨?_, by simpa using h3⟩
          rw [BASE_eq]; omega
        · simpa using h4

theorem subAbs_spec {a b : int2048} (ha : bounded a.digits) (hb : bounded b.digits)
    (hl : b.digits.length ≤ a.digits.length) (hle : mag b.digits ≤ mag a.digits) :
    mag (subAbs a b).digits + mag b.digits = mag a.digits ∧ normal (subAbs a b).digits ∧
      (subAbs a b).sign = false := by
  obtain ⟨out, h1, h2, h3, h4⟩ := subLoop_spec a.digits b.digits 0 ha hb hl (by omega)
  have hn := normalize_digits_spec ⟨subLoop a.digits b.digits 0, false⟩
  simp only [Nat.cast_zero] at h2 h3 h4
  have hlt := mag_lt_pow h3
  rw [h4] at hlt
  have hout : out = 0 := by
    rcases Nat.le_one_iff_eq_zero_or_eq_one.1 h1 with h | h
    · exact h
    · rw [h] at h2
      omega
  rw [hout] at h2
  refine ⟨?_, ?_, rfl⟩
  · show mag (normalize ⟨subLoop a.digits b.digits 0, false⟩).digits + _ = _
    rw [hn.1]
    simpa using h2
  · exact hn.2.1 h3

theorem subAbs_normal_spec {a b : int2048} (ha : normal a.digits) (hb : normal b.digits)
    (hle : mag b.digits ≤ mag a.digits) :
    mag (subAbs a b).digits + mag b.digits = mag a.digits ∧ normal (subAbs a b).digits ∧
      (subAbs a b).sign = false :=
  subAbs_spec ha.2.1 hb.2.1 (length_le_of_mag_le hb ha hle) hle

/-! ### Signed addition, subtraction and negation -/

theorem ofLongLong_zero : ofLongLong 0 = zero := by decide

theorem canonical_zero : canonical zero := by decide

theorem value_zero : value zero = 0 := by decide

theorem add_spec {a b : int2048} (ha : canonical a) (hb : canonical b) :
    value (add a b) = value a + value b ∧ canonical (add a b) := by
  obtain ⟨ha1, ha2⟩ := ha
  obtain ⟨hb1, hb2⟩ := hb
  have hza := mag_eq_zero_iff ha1
  have hzb := mag_eq_zero_iff hb1
  unfold add
  by_cases hs : a.sign = b.sign
  · simp only [hs, if_true]
    obtain ⟨h1, _, _⟩ := addAbs_spec a b
    have h2 := addAbs_normal ha1 hb1
    refine ⟨?_, h2, ?_⟩
    · unfold value
      simp only [h1, hs]
      split <;> push_cast <;> ring
    · intro h0
      simp only at h0
      have : mag (addAbs a b).digits = 0 := by rw [h0]; rfl
      rw [h1] at this
      have hb0 : mag b.digits = 0 := by omega
      exact hb2 (hzb.1 hb0)
  · simp only [hs, if_false]
    rw [compareAbs_spec ha1 hb1]
    unfold cmpNat
    by_cases hlt : mag a.digits < mag b.digits
    · simp only [hlt, if_true]
      norm_num
      obtain ⟨h1, h2, _⟩ := subAbs_normal_spec hb1 ha1 (le_of_lt hlt)
      refine ⟨?_, h2, ?_⟩
      · unfold value
        simp only
        have hab : a.sign = !b.sign := by
          cases h : a.sign <;> cases h' : b.sign <;> simp_all
        rw [hab]
        cases b.sign <;> simp <;> omega
      · intro h0
        simp only at h0
        have : mag (subAbs b a).digits = 0 := by rw [h0]; rfl
        omega
    · simp only [hlt, if_false]
      by_cases heq : mag a.digits = mag b.digits
      · simp only [heq, if_true]
        rw [ofLongLong_zero]
        refine ⟨?_, canonical_zero⟩
        rw [value_zero]
        unfold value
        have hab : a.sign = !b.sign := by
          cases h : a.sign <;> cases h' : b.sign <;> simp_all
        rw [hab, heq]
        cases b.sign <;> simp
      · simp only [heq, if_false]
        norm_num
        obtain ⟨h1, h2, _⟩ := subAbs_normal_spec ha1 hb1 (by omega)
        refine ⟨?_, h2, ?_⟩
        · unfold value
          simp only
          have hab : b.sign = !a.sign := by
            cases h : a.sign <;> cases h' : b.sign <;> simp_all
          rw [hab]
          cases a.sign <;> simp <;> omega
        · intro h0
          simp only at h0
          have : mag (subAbs a b).digits = 0 := by rw [h0]; rfl
          omega

theorem operator_neg_spec {a : int2048} (ha : canonical a) :
    value (operator_neg a) = - value a ∧ canonical (operator_neg a) := by
  obtain ⟨ha1, ha2⟩ := ha
  unfold operator_neg
  by_cases h0 : a.digits = [0]
  · simp only [h0, not_true_eq_false, if_false]
    refine ⟨?_, ha1, ha2⟩
    unfold value
    rw [h0, ha2 h0]
    simp
  · simp only [h0, not_false_eq_true, if_true]
    refine ⟨?_, ha1, fun h => absurd h h0⟩
    unfold value
    cases a.sign <;> simp

theorem minus_eq_add_neg {a b : int2048} (hb : canonical b) :
    minus a b = add a (operator_neg b) := by
  unfold minus operator_neg
  by_cases h0 : b.digits = [0]
  · have hs := hb.2 h0
    simp only [h0, if_true, not_true_eq_false, if_false]
    congr 1
    obtain ⟨bd, bs⟩ := b
    simp only at h0 hs
    subst h0 hs
    rfl
  · simp only [h0, if_false, not_false_eq_true, if_true]

theorem minus_spec {a b : int2048} (ha : canonical a) (hb : canonical b) :
    value (minus a b) = value a - value b ∧ canonical (minus a b) := by
  rw [minus_eq_add_neg hb]
  obtain ⟨h1, h2⟩ := operator_neg_spec hb
  obtain ⟨h3, h4⟩ := add_spec ha h2
  exact ⟨by rw [h3, h1]; ring, h4⟩

theorem add_same_sign {a b : int2048} (h : a.sign = b.sign) :
    (add a b).sign = a.sign ∧ mag (add a b).digits = mag a.digits + mag b.digits := by
  unfold add
  rw [if_pos h]
  exact ⟨rfl, (addAbs_spec a b).1⟩

theorem add_of_gt {a b : int2048} (ha : canonical a) (hb : canonical b)
    (h : a.sign ≠ b.sign) (hlt : mag b.digits < mag a.digits) :
    add a b = { subAbs a b with sign := a.sign } := by
  have h1 : ¬ mag a.digits < mag b.digits := by omega
  have h2 : ¬ mag a.digits = mag b.digits := by omega
  unfold add
  simp only [if_neg h, compareAbs_spec ha.1 hb.1, cmpNat, if_neg h1, if_neg h2]
  norm_num

theorem add_of_lt {a b : int2048} (ha : canonical a) (hb : canonical b)
    (h : a.sign ≠ b.sign) (hlt : mag a.digits < mag b.digits) :
    add a b = { subAbs b a with sign := b.sign } := by
  unfold add
  simp only [if_neg h, compareAbs_spec ha.1 hb.1, cmpNat, if_pos hlt]
  norm_num

theorem add_of_eq {a b : int2048} (ha : canonical a) (hb : canonical b)
    (h : a.sign ≠ b.sign) (heq : mag a.digits = mag b.digits) : add a b = zero := by
  have h1 : ¬ mag a.digits < mag b.digits := by omega
  unfold add
  simp only [if_neg h, compareAbs_spec ha.1 hb.1, cmpNat, if_neg h1, if_pos heq, if_true]
  exact ofLongLong_zero

theorem add_diff_sign {a b : int2048} (ha : canonical a) (hb : canonical b)
    (h : a.sign ≠ b.sign) :
    (mag b.digits < mag a.digits →
      (add a b).sign = a.sign ∧ mag (add a b).digits + mag b.digits = mag a.digits) ∧
    (mag a.digits < mag b.digits →
      (add a b).sign = b.sign ∧ mag (add a b).digits + mag a.digits = mag b.digits) ∧
    (mag a.digits = mag b.digits → add a b = zero) := by
  refine ⟨fun hlt => ?_, fun hlt => ?_, fun heq => add_of_eq ha hb h heq⟩
  · rw [add_of_gt ha hb h hlt]
    exact ⟨rfl, (subAbs_normal_spec ha.1 hb.1 (by omega)).1⟩
  · rw [add_of_lt ha hb h hlt]
    exact ⟨rfl, (subAbs_normal_spec hb.1 ha.1 (by omega)).1⟩

theorem value_eq_zero_iff {x : int2048} (hx : canonical x) : value x = 0 ↔ x.digits = [0] := by
  rw [← mag_eq_zero_iff hx.1]
  unfold value
  split <;> omega

theorem operator_neg_eq_negate {x : int2048} (hx : canonical x) : operator_neg x = negate x := by
  unfold operator_neg negate
  by_cases h : x.digits = [0]
  · rw [if_neg (by simpa using h), if_pos ((value_eq_zero_iff hx).2 h)]
  · rw [if_pos h, if_neg (fun hv => h ((value_eq_zero_iff hx).1 hv))]

/-! ### Schoolbook multiplication -/

theorem getD_cons_succ (d : Nat) (ds : List Nat) (k : Nat) :
    (d :: ds).getD (k + 1) 0 = ds.getD k 0 := by
  simp [List.getD]

theorem mag_set (res : List Nat) (k v : Nat) (hk : k < res.length) :
    mag (res.set k v) + res.getD k 0 * BASE ^ k = mag res + v * BASE ^ k := by
  induction res generalizing k with
  | nil => simp at hk
  | cons d ds ih =>
    cases k with
    | zero => simp [List.getD]; ring
    | succ k =>
      have h := ih k (by simpa using hk)
      have h5 := congrArg (fun z => BASE * z) h
      simp only at h5
      simp only [List.set_cons_succ, mag_cons, getD_cons_succ, pow_succ]
      linarith

theorem bounded_set {res : List Nat} (k : Nat) {v : Nat} (hr : bounded res) (hv : v < BASE) :
    bounded (res.set k v) := by
  intro d hd
  rcases List.mem_or_eq_of_mem_set hd with h | h
  · exact hr d h
  · rw [h]; exact hv

theorem getD_set_ne (res : List Nat) (k m v : Nat) (h : m ≠ k) :
    (res.set k v).getD m 0 = res.getD m 0 := by
  induction res generalizing k m with
  | nil => simp
  | cons d ds ih =>
    cases k with
    | zero =>
      cases m with
      | zero => exact absurd rfl h
      | succ m => simp [List.getD]
    | succ k =>
      cases m with
      | zero => simp [List.getD]
      | succ m =>
        simp only [List.set_cons_succ, getD_cons_succ]
        exact ih k m (by omega)

theorem getD_lt_of_bounded {res : List Nat} (hr : bounded res) (k : Nat) :
    res.getD k 0 < BASE := by
  induction res generalizing k with
  | nil => simp [BASE]
  | cons d ds ih =>
    cases k with
    | zero => simpa [List.getD] using (bounded_cons.1 hr).1
    | succ k =>
      rw [getD_cons_succ]
      exact ih (bounded_cons.1 hr).2 k

theorem mag_drop (b : List Nat) (j : Nat) (hj : j < b.length) :
    mag (b.drop j) = b.getD j 0 + BASE * mag (b.drop (j + 1)) := by
  induction b generalizing j with
  | nil => simp at hj
  | cons d ds ih =>
    cases j with
    | zero => simp [List.getD]
    | succ j =>
      simp only [List.drop_succ_cons, getD_cons_succ]
      exact ih j (by simpa using hj)

theorem mag_drop_length (b : List Nat) (j : Nat) (hj : b.length ≤ j) : mag (b.drop j) = 0 := by
  rw [List.drop_eq_nil_of_le hj]
  rfl

theorem mulInner_done (ai : Nat) (b : List Nat) (i fuel j carry : Nat) (res : List Nat)
    (h : ¬ (j < b.length ∨ carry ≠ 0)) : mulInner ai b i fuel j carry res = res := by
  cases fuel with
  | zero => rfl
  | succ fuel =>
    unfold mulInner
    rw [if_neg h]

theorem limb_product_lt {x y r c : Nat} (hx : x < BASE) (hy : y < BASE) (hr : r < BASE)
    (hc : c < BASE) : (r + c + x * y) / BASE < BASE := by
  have h1 : x * y ≤ (BASE - 1) * (BASE - 1) :=
    Nat.mul_le_mul (Nat.le_sub_one_of_lt hx) (Nat.le_sub_one_of_lt hy)
  rw [BASE_eq] at *
  norm_num at h1
  omega

theorem row_arith {M R m q r c x y D P B : Nat} (hset : M + r * P = R + m * P)
    (hdm : m + B * q = r + c + x * y) :
    M + (q + x * D) * (P * B) = R + (c + x * (y + B * D)) * P := by
  have h5 : (m + B * q) * P = (r + c + x * y) * P := by rw [hdm]
  have e1 : M + (q + x * D) * (P * B) + r * P = R + (c + x * (y + B * D)) * P + r * P := by
    calc M + (q + x * D) * (P * B) + r * P
        = (M + r * P) + q * P * B + x * D * P * B := by ring
      _ = (R + m * P) + q * P * B + x * D * P * B := by rw [hset]
      _ = R + (m + B * q) * P + x * D * P * B := by ring
      _ = R + (r + c + x * y) * P + x * D * P * B := by rw [h5]
      _ = R + (c + x * (y + B * D)) * P + r * P := by ring
  exact Nat.add_right_cancel e1

/-- One row of the schoolbook multiplication: started inside the buffer with zero limbs
from index `i + b.size()` on, the inner loop adds `(carry + ai * b[j..]) * BASE^(i+j)` to
the buffer, keeps every limb below `BASE`, and leaves zero limbs from index
`i + b.size() + 1` on.  It ends through its loop condition, not through the fuel. -/
theorem mulInner_spec (ai : Nat) (b : List Nat) (i n : Nat) (hai : ai < BASE)
    (hb : bounded b) (hin : i + b.length < n) (fuel j carry : Nat) (res : List Nat)
    (hj : j ≤ b.length) (hc : carry < BASE) (hlen : res.length = n) (hres : bounded res)
    (hz : ∀ k, i + b.length ≤ k → res.getD k 0 = 0) (hf : b.length + 1 - j ≤ fuel) :
    (mulInner ai b i fuel j carry res).length = n ∧
    bounded (mulInner ai b i fuel j carry res) ∧
    (∀ k, i + b.length + 1 ≤ k → (mulInner ai b i fuel j carry res).getD k 0 = 0) ∧
    mag (mulInner ai b i fuel j carry res)
      = mag res + (carry + ai * mag (b.drop j)) * BASE ^ (i + j) := by
  induction fuel generalizing j carry res with
  | zero => omega
  | succ fuel ih =>
    by_cases hjb : j < b.length
    · unfold mulInner
      simp only [hjb, true_or, if_true]
      have hbj : b.getD j 0 < BASE := getD_lt_of_bounded hb j
      have hro : res.getD (i + j) 0 < BASE := getD_lt_of_bounded hres _
      have hc2 := limb_product_lt hai hbj hro hc
      have hm : (res.getD (i + j) 0 + carry + ai * b.getD j 0) % BASE < BASE :=
        Nat.mod_lt _ BASE_pos
      obtain ⟨h1, h2, h3, h4⟩ := ih (j + 1)
        ((res.getD (i + j) 0 + carry + ai * b.getD j 0) / BASE)
        (res.set (i + j) ((res.getD (i + j) 0 + carry + ai * b.getD j 0) % BASE))
        (by omega) hc2 (by simpa using hlen) (bounded_set _ hres hm)
        (fun k hk => by rw [getD_set_ne _ _ _ _ (by omega)]; exact hz k hk) (by omega)
      refine ⟨h1, h2, h3, ?_⟩
      rw [h4, mag_drop b j hjb]
      have hset := mag_set res (i + j)
        ((res.getD (i + j) 0 + carry + ai * b.getD j 0) % BASE) (by omega)
      have hdm := Nat.mod_add_div (res.getD (i + j) 0 + carry + ai * b.getD j 0) BASE
      have e : BASE ^ (i + (j + 1)) = BASE ^ (i + j) * BASE := by
        rw [← Nat.add_assoc, pow_succ]
      rw [e]
      exact row_arith hset hdm
    · have hjeq : j = b.length := by omega
      subst hjeq
      by_cases hc0 : carry = 0
      · subst hc0
        rw [mulInner_done _ _ _ _ _ _ _ (by simp)]
        refine ⟨hlen, hres, fun k hk => hz k (by omega), ?_⟩
        simp [mag_drop_length]
      · unfold mulInner
        simp only [hjb, hc0, ne_eq, not_false_eq_true, or_true, if_true, if_false, Nat.add_zero]
        rw [hz (i + b.length) (le_refl _)]
        simp only [Nat.zero_add]
        rw [Nat.div_eq_of_lt hc, Nat.mod_eq_of_lt hc]
        rw [mulInner_done _ _ _ _ _ _ _ (by simp)]
        refine ⟨by simpa using hlen, bounded_set _ hres hc, ?_, ?_⟩
        · intro k hk
          rw [getD_set_ne _ _ _ _ (by omega)]
          exact hz k (by omega)
        · have hset := mag_set res (i + b.length) carry (by omega)
          rw [hz (i + b.length) (le_refl _)] at hset
          simp only [mag_drop_length b b.length (le_refl _)]
          linarith

theorem mulOuter_spec (b : List Nat) (n : Nat) (hb : bounded b) (rest : List Nat) (i : Nat)
    (res : List Nat) (hrest : bounded rest) (hn : i + rest.length + b.length = n)
    (hlen : res.length = n) (hres : bounded res)
    (hz : ∀ k, i + b.length ≤ k → res.getD k 0 = 0) :
    (mulOuter b rest i res).length = n ∧ bounded (mulOuter b rest i res) ∧
      mag (mulOuter b rest i res) = mag res + mag rest * mag b * BASE ^ i := by
  induction rest generalizing i res with
  | nil =>
    unfold mulOuter
    exact ⟨hlen, hres, by simp⟩
  | cons ai rest ih =>
    unfold mulOuter
    have ha := bounded_cons.1 hrest
    simp only [List.length_cons] at hn
    obtain ⟨h1, h2, h3, h4⟩ := mulInner_spec ai b i n ha.1 hb (by omega) res.length 0 0 res
      (Nat.zero_le _) BASE_pos hlen hres hz (by omega)
    obtain ⟨g1, g2, g3⟩ := ih (i + 1) (mulInner ai b i res.length 0 0 res) ha.2 (by omega) h1 h2
      (fun k hk => h3 k (by omega))
    refine ⟨g1, g2, ?_⟩
    rw [g3, h4]
    simp only [List.drop_zero, Nat.zero_add, Nat.add_zero, mag_cons, pow_succ]
    ring

theorem getD_replicate_zero (n k : Nat) : (List.replicate n 0).getD k 0 = 0 := by
  induction n generalizing k with
  | zero => simp
  | succ n ih =>
    cases k with
    | zero => simp [List.replicate_succ, List.getD]
    | succ k =>
      rw [List.replicate_succ, getD_cons_succ]
      exact ih k

theorem bounded_replicate_zero (n : Nat) : bounded (List.replicate n 0) := by
  intro d hd
  rw [List.eq_of_mem_replicate hd]
  exact BASE_pos

theorem schoolbook_spec {a b : int2048} (ha : bounded a.digits) (hb : bounded b.digits) :
    mag (schoolbook a b).digits = mag a.digits * mag b.digits ∧
      normal (schoolbook a b).digits ∧ (schoolbook a b).sign = false := by
  obtain ⟨_, h2, h3⟩ := mulOuter_spec b.digits (a.digits.length + b.digits.length) hb a.digits 0
    (List.replicate (a.digits.length + b.digits.length) 0) ha (by omega) (by simp)
    (bounded_replicate_zero _) (fun k _ => getD_replicate_zero _ k)
  have hn := normalize_digits_spec
    ⟨mulOuter b.digits a.digits 0 (List.replicate (a.digits.length + b.digits.length) 0), false⟩
  refine ⟨?_, hn.2.1 h2, rfl⟩
  show mag (normalize _).digits = _
  rw [hn.1]
  simp only
  rw [h3, mag_replicate_zero]
  simp

/-! ### Karatsuba multiplication -/

theorem bounded_take {ds : List Nat} (h : bounded ds) (k : Nat) : bounded (ds.take k) :=
  fun d hd => h d (List.mem_of_mem_take hd)

theorem bounded_drop {ds : List Nat} (h : bounded ds) (k : Nat) : bounded (ds.drop k) :=
  fun d hd => h d (List.mem_of_mem_drop hd)

theorem lowPart_spec {a : int2048} (ha : bounded a.digits) (mid : Nat) (hmid : 1 ≤ mid) :
    normal (lowPart a mid).digits ∧ (lowPart a mid).digits.length ≤ mid ∧
      mag (lowPart a mid).digits = mag (a.digits.take mid) := by
  have hn := normalize_digits_spec ⟨a.digits.take (min mid a.digits.length), false⟩
  have e : a.digits.take (min mid a.digits.length) = a.digits.take mid := by
    rw [List.take_eq_take]
    simp
  refine ⟨hn.2.1 (bounded_take ha _), ?_, ?_⟩
  · have h3 := hn.2.2.1
    simp only [List.length_take] at h3
    show (normalize _).digits.length ≤ mid
    omega
  · show mag (normalize _).digits = _
    rw [hn.1]
    simp only
    rw [e]

theorem highPart_spec {a : int2048} (ha : bounded a.digits) (mid : Nat) :
    normal (highPart a mid).digits ∧
      (highPart a mid).digits.length ≤ max 1 (a.digits.length - mid) ∧
      mag (highPart a mid).digits = mag (a.digits.drop mid) := by
  unfold highPart
  by_cases h : mid < a.digits.length
  · simp only [h, if_true]
    have hn := normalize_digits_spec ⟨a.digits.drop mid, false⟩
    refine ⟨hn.2.1 (bounded_drop ha _), ?_, hn.1⟩
    have h3 := hn.2.2.1
    simpa using h3
  · simp only [h, if_false]
    have e : normalize ⟨[0, 0], false⟩ = ⟨[0], false⟩ := by decide
    rw [e, List.drop_eq_nil_of_le (by omega)]
    refine ⟨normal_zero, ?_, rfl⟩
    simp

theorem mag_take_drop (ds : List Nat) (k : Nat) (hk : k ≤ ds.length) :
    mag (ds.take k) + BASE ^ k * mag (ds.drop k) = mag ds := by
  have h := mag_append (ds.take k) (ds.drop k)
  rw [List.take_append_drop, List.length_take, min_eq_left hk] at h
  exact h.symm

theorem mag_split (ds : List Nat) (k : Nat) :
    mag (ds.take k) + BASE ^ k * mag (ds.drop k) = mag ds := by
  by_cases hk : k ≤ ds.length
  · exact mag_take_drop ds k hk
  · rw [List.take_of_length_le (by omega), List.drop_eq_nil_of_le (by omega)]
    simp

theorem addShifted_spec (r z : int2048) (k : Nat) :
    mag (addShifted r z k).digits = mag r.digits + BASE ^ k * mag z.digits ∧
      (bounded r.digits → bounded (addShifted r z k).digits) := by
  unfold addShifted
  by_cases h : 1 < z.digits.length ∨ z.digits.headD 0 ≠ 0
  · simp only [h, if_true]
    obtain ⟨h1, h2, _⟩ := addAbs_spec r { z with digits := List.replicate k 0 ++ z.digits }
    refine ⟨?_, fun _ => h2⟩
    rw [h1]
    simp only [mag_append, mag_replicate_zero, List.length_replicate]
    ring
  · simp only [h, if_false]
    refine ⟨?_, id⟩
    have hz : mag z.digits = 0 := by
      rcases hd : z.digits with _ | ⟨d, ds⟩
      · rfl
      · rw [hd] at h
        simp only [List.length_cons, List.headD_cons, not_or, not_lt, not_not] at h
        have : ds = [] := List.length_eq_zero.1 (by omega)
        rw [this, h.2]
        rfl
    rw [hz]
    simp

theorem combine_spec {z0 z2 z1 : int2048} (mid x0 x1 y0 y1 : Nat)
    (h0 : normal z0.digits) (h2 : normal z2.digits) (h1 : normal z1.digits)
    (e0 : mag z0.digits = x0 * y0) (e2 : mag z2.digits = x1 * y1)
    (e1 : mag z1.digits = (x0 + x1) * (y0 + y1)) :
    mag (combine z0 z2 z1 mid).digits = (x0 + BASE ^ mid * x1) * (y0 + BASE ^ mid * y1) ∧
      normal (combine z0 z2 z1 mid).digits ∧ (combine z0 z2 z1 mid).sign = false := by
  have ex : (x0 + x1) * (y0 + y1) = x0 * y0 + x1 * y1 + (x0 * y1 + x1 * y0) := by ring
  obtain ⟨s1, s2, _⟩ := subAbs_normal_spec h1 h0 (by rw [e0, e1, ex]; omega)
  obtain ⟨t1, t2, _⟩ := subAbs_normal_spec s2 h2 (by
    have : mag (subAbs z1 z0).digits = x1 * y1 + (x0 * y1 + x1 * y0) := by
      rw [e0, e1, ex] at s1; omega
    rw [this, e2]; omega)
  have hm : mag (subAbs (subAbs z1 z0) z2).digits = x0 * y1 + x1 * y0 := by
    rw [e0, e1, ex] at s1
    rw [e2] at t1
    omega
  obtain ⟨u1, u2⟩ := addShifted_spec z0 (subAbs (subAbs z1 z0) z2) mid
  obtain ⟨v1, v2⟩ := addShifted_spec (addShifted z0 (subAbs (subAbs z1 z0) z2) mid) z2 (2 * mid)
  have hn := normalize_digits_spec
    (addShifted (addShifted z0 (subAbs (subAbs z1 z0) z2) mid) z2 (2 * mid))
  refine ⟨?_, hn.2.1 (v2 (u2 h0.2.1)), rfl⟩
  show mag (normalize _).digits = _
  rw [hn.1, v1, u1, hm, e0, e2]
  have : BASE ^ (2 * mid) = BASE ^ mid * BASE ^ mid := by rw [two_mul, pow_add]
  rw [this]
  ring

theorem addAbs_length_le {a b : int2048} (ha : bounded a.digits) (hb : bounded b.digits) :
    (addAbs a b).digits.length ≤ max a.digits.length b.digits.length + 1 :=
  addLoop_length_le _ _ ha hb

/-- The recursion of `multiplyAbs` ends within `max(a.size(), b.size())` levels, and the
result is the canonical limb sequence of the product. -/
theorem multiplyAbsAux_spec (fuel : Nat) (a b : int2048) (ha : bounded a.digits)
    (hb : bounded b.digits) (hf : max a.digits.length b.digits.length ≤ fuel) :
    ∃ r, multiplyAbsAux fuel a b = some r ∧ mag r.digits = mag a.digits * mag b.digits ∧
      normal r.digits ∧ r.sign = false := by
  induction fuel generalizing a b with
  | zero =>
    have h : a.digits.length ≤ KARATSUBA_THRESHOLD ∨ b.digits.length ≤ KARATSUBA_THRESHOLD := by
      left; unfold KARATSUBA_THRESHOLD; omega
    refine ⟨schoolbook a b, ?_, schoolbook_spec ha hb⟩
    unfold multiplyAbsAux
    rw [if_pos h]
  | succ fuel ih =>
    by_cases h : a.digits.length ≤ KARATSUBA_THRESHOLD ∨ b.digits.length ≤ KARATSUBA_THRESHOLD
    · refine ⟨schoolbook a b, ?_, schoolbook_spec ha hb⟩
      unfold multiplyAbsAux
      rw [if_pos h]
    · unfold KARATSUBA_THRESHOLD at h
      have hmid : 1 ≤ max a.digits.length b.digits.length / 2 := by omega
      obtain ⟨la1, la2, la3⟩ := lowPart_spec ha (max a.digits.length b.digits.length / 2) hmid
      obtain ⟨lb1, lb2, lb3⟩ := lowPart_spec hb (max a.digits.length b.digits.length / 2) hmid
      obtain ⟨ha1, ha2, ha3⟩ := highPart_spec ha (max a.digits.length b.digits.length / 2)
      obtain ⟨hb1, hb2, hb3⟩ := highPart_spec hb (max a.digits.length b.digits.length / 2)
      have sa := addAbs_length_le la1.2.1 ha1.2.1
      have sb := addAbs_length_le lb1.2.1 hb1.2.1
      obtain ⟨z0, r0, m0, n0, _⟩ := ih _ _ la1.2.1 lb1.2.1 (by omega)
      obtain ⟨z2, r2, m2, n2, _⟩ := ih _ _ ha1.2.1 hb1.2.1 (by omega)
      obtain ⟨z1, r1, m1, n1, _⟩ := ih
        (addAbs (lowPart a (max a.digits.length b.digits.length / 2))
          (highPart a (max a.digits.length b.digits.length / 2)))
        (addAbs (lowPart b (max a.digits.length b.digits.length / 2))
          (highPart b (max a.digits.length b.digits.length / 2)))
        (addAbs_spec _ _).2.1 (addAbs_spec _ _).2.1 (by omega)
      rw [(addAbs_spec _ _).1, (addAbs_spec _ _).1] at m1
      refine ⟨combine z0 z2 z1 (max a.digits.length b.digits.length / 2), ?_, ?_⟩
      · unfold multiplyAbsAux
        unfold KARATSUBA_THRESHOLD
        rw [if_neg h]
        simp only [r0, r2, r1]
      · have hc := combine_spec (max a.digits.length b.digits.length / 2) _ _ _ _ n0 n2 n1 m0 m2 m1
        rw [la3, ha3, lb3, hb3, mag_split, mag_split] at hc
        exact hc

theorem multiplyAbs_spec {a b : int2048} (ha : bounded a.digits) (hb : bounded b.digits) :
    mag (multiplyAbs a b).digits = mag a.digits * mag b.digits ∧
      normal (multiplyAbs a b).digits ∧ (multiplyAbs a b).sign = false := by
  obtain ⟨r, h1, h2⟩ := multiplyAbsAux_spec _ a b ha hb (le_refl _)
  unfold multiplyAbs
  rw [h1]
  exact h2

theorem operator_mul_spec {a b : int2048} (ha : canonical a) (hb : canonical b) :
    value (operator_mul a b) = value a * value b ∧ canonical (operator_mul a b) := by
  obtain ⟨h1, h2, _⟩ := multiplyAbs_spec ha.1.2.1 hb.1.2.1
  have hz := mag_eq_zero_iff h2
  unfold operator_mul
  simp only
  by_cases h0 : (multiplyAbs a b).digits = [0]
  · simp only [h0, if_true]
    refine ⟨?_, normal_zero, fun _ => rfl⟩
    have hm := hz.2 h0
    rw [h1] at hm
    unfold value
    simp only [mag_cons, mag_nil]
    rcases Nat.mul_eq_zero.1 hm with h | h <;> rw [h] <;> simp
  · simp only [h0, if_false]
    refine ⟨?_, h2, fun h => absurd h h0⟩
    unfold value
    simp only [h1]
    cases a.sign <;> cases b.sign <;> simp

theorem operator_mul_mag_sign {a b : int2048} (ha : canonical a) (hb : canonical b) :
    mag (operator_mul a b).digits = mag a.digits * mag b.digits ∧
      (mag a.digits * mag b.digits ≠ 0 → (operator_mul a b).sign = (a.sign != b.sign)) ∧
      (mag a.digits * mag b.digits = 0 → (operator_mul a b).sign = false) := by
  obtain ⟨h1, h2, _⟩ := multiplyAbs_spec ha.1.2.1 hb.1.2.1
  have hz := mag_eq_zero_iff h2
  rw [h1] at hz
  by_cases h0 : (multiplyAbs a b).digits = [0]
  · have e : operator_mul a b = ⟨(multiplyAbs a b).digits, false⟩ := by
      unfold operator_mul
      simp only [h0, if_true]
    rw [e]
    exact ⟨h1, fun h => absurd (hz.2 h0) h, fun _ => rfl⟩
  · have e : operator_mul a b = ⟨(multiplyAbs a b).digits, (a.sign != b.sign)⟩ := by
      unfold operator_mul
      simp only [h0, if_false]
    rw [e]
    exact ⟨h1, fun _ => rfl, fun h => absurd (hz.1 h) h0⟩

/-! ### Division and modulo -/

theorem searchLimb_bounds (b current : int2048) (fuel left right : Nat) (h : left ≤ right) :
    left ≤ searchLimb b current fuel left right ∧
      searchLimb b current fuel left right ≤ right := by
  induction fuel generalizing left right with
  | zero => exact ⟨le_refl _, h⟩
  | succ fuel ih =>
    unfold searchLimb
    by_cases hlt : left < right
    · simp only [hlt, if_true]
      split
      · have := ih ((left + right + 1) / 2) right (by omega)
        omega
      · have := ih left ((left + right + 1) / 2 - 1) (by omega)
        omega
    · simp only [hlt, if_false]
      omega

/-- The binary search ends through its loop condition: once the fuel covers the width
of the interval, more fuel does not change the result. -/
theorem searchLimb_fuel (b current : int2048) (fuel extra left right : Nat)
    (h : right - left ≤ fuel) :
    searchLimb b current (fuel + extra) left right = searchLimb b current fuel left right := by
  induction fuel generalizing left right with
  | zero =>
    have hn : ¬ left < right := by omega
    cases extra with
    | zero => rfl
    | succ e =>
      simp only [Nat.zero_add]
      unfold searchLimb
      rw [if_neg hn]
  | succ fuel ih =>
    have e : fuel + 1 + extra = (fuel + extra) + 1 := by omega
    rw [e]
    unfold searchLimb
    by_cases hlt : left < right
    · simp only [hlt, if_true]
      split
      · exact ih _ _ (by omega)
      · exact ih _ _ (by omega)
    · simp only [hlt, if_false]

theorem divLoop_bounded (b : int2048) (rest : List Nat) (current : int2048) (res : List Nat)
    (hres : bounded res) : bounded (divLoop b rest current res).1 := by
  induction rest generalizing current res with
  | nil => exact hres
  | cons ai rest ih =>
    rw [divLoop]
    have hs := (searchLimb_bounds b (normalize { current with digits := ai :: current.digits })
      (BASE - 1) 0 (BASE - 1) (Nat.zero_le _)).2
    generalize searchLimb b (normalize { current with digits := ai :: current.digits })
      (BASE - 1) 0 (BASE - 1) = left at hs ⊢
    apply ih
    apply bounded_cons.2
    refine ⟨?_, hres⟩
    have hB := BASE_pos
    omega

theorem canonical_of_normal_false {x : int2048} (h : normal x.digits) (hs : x.sign = false) :
    canonical x :=
  ⟨h, fun _ => hs⟩

theorem canonical_fix_zero {x : int2048} (h : normal x.digits) :
    canonical (if x.digits = [0] then { x with sign := false } else x) := by
  split
  · exact ⟨h, fun _ => rfl⟩
  · rename_i h0
    exact ⟨h, fun hz => absurd hz h0⟩

theorem longDivision_canonical (a b : int2048) :
    canonical (longDivision a b) ∧ (longDivision a b).sign = false := by
  have hb := divLoop_bounded b a.digits.reverse ⟨[], false⟩ [] bounded_nil
  have hn := normalize_digits_spec ⟨(divLoop b a.digits.reverse ⟨[], false⟩ []).1, false⟩
  exact ⟨canonical_of_normal_false (hn.2.1 hb) (hn.2.2.2.2.2 rfl), hn.2.2.2.2.2 rfl⟩

theorem floorAdjust_canonical (q a b : int2048) (s : Bool) (hq : canonical q) :
    canonical (floorAdjust q a b s) := by
  unfold floorAdjust
  cases s with
  | true =>
    simp only [if_true]
    split
    · have h1 : canonical (ofLongLong 1) := by decide
      have h2 := (add_spec hq h1).2
      exact canonical_fix_zero (x := { operator_add _ _ with sign := true }) h2.1
    · exact canonical_fix_zero (x := { q with sign := true }) hq.1
  | false =>
    exact canonical_fix_zero (x := { q with sign := false }) hq.1

/-- The quotient that `operator/` returns is in canonical form, for all operands. -/
theorem operator_div_canonical (a b : int2048) : canonical (operator_div a b) := by
  unfold operator_div
  simp only
  split
  · split
    · decide
    · decide
  · exact floorAdjust_canonical _ _ _ _ (longDivision_canonical _ _).1

theorem operator_mod_spec {a b : int2048} (ha : canonical a) (hb : canonical b) :
    value (operator_mod a b) = value a - value (operator_div a b) * value b ∧
      canonical (operator_mod a b) := by
  obtain ⟨h1, h2⟩ := operator_mul_spec (operator_div_canonical a b) hb
  obtain ⟨h3, h4⟩ := minus_spec ha h2
  exact ⟨by show value (minus a _) = _; rw [h3, h1], h4⟩

theorem operator_eq_iff (a b : int2048) : operator_eq a b = true ↔ a = b := by
  obtain ⟨ad, as⟩ := a
  obtain ⟨bd, bs⟩ := b
  simp [operator_eq, and_comm]

theorem division_identity {a b : int2048} (ha : canonical a) (hb : canonical b) :
    operator_add (operator_mul b (operator_div a b)) (operator_mod a b) = a := by
  obtain ⟨h1, h2⟩ := operator_mul_spec hb (operator_div_canonical a b)
  obtain ⟨h3, h4⟩ := operator_mod_spec ha hb
  obtain ⟨h5, h6⟩ := add_spec h2 h4
  apply canonical_inj h6 ha
  show value (add _ _) = _
  rw [h5, h1, h3]
  ring

theorem mod_by_zero {a b : int2048} (ha : canonical a) (hb : canonical b)
    (h0 : mag b.digits = 0) : operator_mod a b = a := by
  obtain ⟨h3, h4⟩ := operator_mod_spec ha hb
  apply canonical_inj h4 ha
  rw [h3]
  have : value b = 0 := by
    unfold value
    rw [h0]
    simp
  rw [this]
  ring

/-! ### Parsing -/

theorem normalize_sign (x : int2048) (h : (normalize x).digits ≠ [0]) :
    (normalize x).sign = x.sign := by
  unfold normalize at h ⊢
  by_cases he : popZeros x.digits.length x.digits = []
  · simp [he] at h
  · simp only [he, if_false] at h ⊢
    by_cases hz : popZeros x.digits.length x.digits = [0]
    · simp [hz] at h
    · simp only [hz, if_false]

theorem foldl_decimal (acc : Nat) (cs : List Char) :
    cs.foldl (fun n c => n * 10 + (c.toNat - 48)) acc
      = acc * 10 ^ cs.length + cs.foldl (fun n c => n * 10 + (c.toNat - 48)) 0 := by
  induction cs generalizing acc with
  | nil => simp
  | cons c cs ih =>
    simp only [List.foldl_cons, List.length_cons]
    rw [ih (acc * 10 + (c.toNat - 48)), ih (0 * 10 + (c.toNat - 48))]
    ring

theorem decimalValue_append (xs ys : List Char) :
    decimalValue (xs ++ ys) = decimalValue xs * 10 ^ ys.length + decimalValue ys := by
  unfold decimalValue
  rw [List.foldl_append, foldl_decimal]

theorem decimalValue_lt (cs : List Char) (h : ∀ c ∈ cs, isDecimalDigit c) :
    decimalValue cs < 10 ^ cs.length := by
  induction cs using List.reverseRecOn with
  | nil => simp [decimalValue]
  | append_singleton cs c ih =>
    have h1 := ih (fun d hd => h d (List.mem_append_left _ hd))
    have h2 := (h c (by simp)).2
    rw [decimalValue_append]
    simp only [List.length_append, List.length_singleton, pow_succ, pow_one]
    have : decimalValue [c] = c.toNat - 48 := by simp [decimalValue]
    rw [this]
    omega

theorem readChunk_foldl (acc : Nat) (cs : List Char) (h : ∀ c ∈ cs, 48 ≤ c.toNat) :
    cs.foldl (fun num c => num * 10 + charValue c) (acc : Int)
      = ((cs.foldl (fun n c => n * 10 + (c.toNat - 48)) acc : Nat) : Int) := by
  induction cs generalizing acc with
  | nil => simp
  | cons c cs ih =>
    simp only [List.foldl_cons]
    have hc := h c (by simp)
    have e : (acc : Int) * 10 + charValue c = ((acc * 10 + (c.toNat - 48) : Nat) : Int) := by
      unfold charValue
      omega
    rw [e]
    exact ih _ (fun d hd => h d (List.mem_cons_of_mem _ hd))

theorem readChunk_eq (cs : List Char) (h : ∀ c ∈ cs, 48 ≤ c.toNat) :
    (readChunk cs).toNat = decimalValue cs := by
  unfold readChunk decimalValue
  have := readChunk_foldl 0 cs h
  simp only [Nat.cast_zero] at this
  rw [this]
  simp

theorem readLoop_stop (s : List Char) (start fuel i : Nat) (h : ¬ start < i) :
    readLoop s start fuel i = [] := by
  cases fuel with
  | zero => rfl
  | succ fuel =>
    unfold readLoop
    rw [if_neg h]

theorem mem_drop_of_mem_chunk {s : List Char} {start k n : Nat} {c : Char} (hk : start ≤ k)
    (hc : c ∈ (s.drop k).take n) : c ∈ s.drop start := by
  have h1 : c ∈ s.drop k := List.mem_of_mem_take hc
  have e : s.drop k = (s.drop start).drop (k - start) := by
    rw [List.drop_drop]
    congr 1
    omega
  rw [e] at h1
  exact List.mem_of_mem_drop h1

theorem chunk_split (s : List Char) (start i : Nat) (h1 : start + 9 ≤ i) :
    (s.drop start).take (i - start)
      = (s.drop start).take (i - 9 - start) ++ (s.drop (i - 9)).take 9 := by
  have e : i - start = (i - 9 - start) + 9 := by omega
  have e2 : (s.drop start).drop (i - 9 - start) = s.drop (i - 9) := by
    rw [List.drop_drop]
    congr 1
    omega
  rw [e, List.take_add, e2]

/-- The chunk loop of `read` computes, limb by limb, the number that the characters
from `start` to `i` denote; it ends through its loop condition. -/
theorem readLoop_spec (s : List Char) (start : Nat) (h : ∀ c ∈ s.drop start, 48 ≤ c.toNat)
    (fuel i : Nat) (hi : i ≤ s.length) (hf : i ≤ fuel) :
    mag (readLoop s start fuel i) = decimalValue ((s.drop start).take (i - start)) := by
  induction fuel generalizing i with
  | zero =>
    have : i = 0 := by omega
    subst this
    simp [readLoop, decimalValue]
  | succ fuel ih =>
    by_cases hlt : start < i
    · unfold readLoop
      simp only [hlt, if_true, mag_cons]
      by_cases h9 : i - start ≤ 9
      · have e1 : min BASE_DIGITS (i - start) = i - start := by
          unfold BASE_DIGITS; omega
        have e2 : i - (i - start) = start := by omega
        rw [readLoop_stop _ _ _ _ (by unfold BASE_DIGITS; omega), e1, e2]
        rw [readChunk_eq _ (fun c hc => h c (mem_drop_of_mem_chunk (le_refl _) hc))]
        simp
      · have e1 : min BASE_DIGITS (i - start) = 9 := by
          unfold BASE_DIGITS; omega
        rw [e1, readChunk_eq _ (fun c hc => h c (mem_drop_of_mem_chunk (k := i - 9) (by omega) hc))]
        have hih := ih (i - BASE_DIGITS) (by omega) (by unfold BASE_DIGITS; omega)
        rw [hih]
        unfold BASE_DIGITS
        rw [chunk_split s start i (by omega), decimalValue_append]
        have hl : ((s.drop (i - 9)).take 9).length = 9 := by
          rw [List.length_take, List.length_drop]
          omega
        rw [hl, BASE_eq]
        ring
    · rw [readLoop_stop _ _ _ _ hlt]
      have : i - start = 0 := by omega
      rw [this]
      simp [decimalValue]

theorem chunk_lt (s : List Char) (start : Nat) (h : ∀ c ∈ s.drop start, isDecimalDigit c)
    (k n : Nat) (hk : start ≤ k) (hn : n ≤ 9) :
    (readChunk ((s.drop k).take n)).toNat < BASE := by
  rw [readChunk_eq _ (fun c hc => (h c (mem_drop_of_mem_chunk hk hc)).1)]
  have h1 := decimalValue_lt ((s.drop k).take n)
    (fun c hc => h c (mem_drop_of_mem_chunk hk hc))
  have h2 : ((s.drop k).take n).length ≤ 9 := by
    rw [List.length_take]
    omega
  have h3 : 10 ^ ((s.drop k).take n).length ≤ 10 ^ 9 := Nat.pow_le_pow_right (by decide) h2
  rw [BASE_eq]
  omega

theorem readLoop_bounded (s : List Char) (start : Nat)
    (h : ∀ c ∈ s.drop start, isDecimalDigit c) (fuel i : Nat) :
    bounded (readLoop s start fuel i) := by
  induction fuel generalizing i with
  | zero => exact bounded_nil
  | succ fuel ih =>
    unfold readLoop
    split
    · rename_i hlt
      apply bounded_cons.2
      refine ⟨?_, ih _⟩
      apply chunk_lt s start h
      · omega
      · unfold BASE_DIGITS
        omega
    · exact bounded_nil

theorem body_eq_drop (s : List Char) :
    body s = s.drop (if s.head? = some '-' then 1 else if s.head? = some '+' then 1 else 0) := by
  cases s with
  | nil => rfl
  | cons c t =>
    simp only [body, List.head?_cons, Option.some.injEq]
    by_cases h1 : c = '-'
    · simp [h1]
    · by_cases h2 : c = '+'
      · simp [h2]
      · simp [h1, h2]

theorem read_value (s : List Char) (h : ∀ c ∈ body s, 48 ≤ c.toNat) :
    value (read s) = denote s := by
  rw [body_eq_drop] at h
  have hm := readLoop_spec s _ h s.length s.length (le_refl _) (le_refl _)
  have hn := normalize_digits_spec
    ⟨readLoop s (if s.head? = some '-' then 1 else if s.head? = some '+' then 1 else 0)
      s.length s.length, decide (s.head? = some '-')⟩
  have hs := normalize_sign
    ⟨readLoop s (if s.head? = some '-' then 1 else if s.head? = some '+' then 1 else 0)
      s.length s.length, decide (s.head? = some '-')⟩
  have hmag : mag (read s).digits = decimalValue (body s) := by
    show mag (normalize _).digits = _
    rw [hn.1, body_eq_drop]
    simp only
    rw [hm]
    congr 1
    apply List.take_of_length_le
    rw [List.length_drop]
  unfold value denote
  rw [hmag]
  by_cases hz : (read s).digits = [0]
  · have h0 : decimalValue (body s) = 0 := by
      rw [← hmag, hz]; rfl
    rw [h0]
    simp
  · have hsg : (read s).sign = decide (s.head? = some '-') := hs hz
    rw [hsg]
    by_cases hd : s.head? = some '-'
    · simp [hd]
    · simp [hd]

theorem read_canonical (s : List Char) (h : validDecimal s) : canonical (read s) := by
  have hb := h.2
  rw [body_eq_drop] at hb
  have h1 := readLoop_bounded s _ hb s.length s.length
  have hn := normalize_digits_spec
    ⟨readLoop s (if s.head? = some '-' then 1 else if s.head? = some '+' then 1 else 0)
      s.length s.length, decide (s.head? = some '-')⟩
  exact ⟨hn.2.1 h1, hn.2.2.2.1⟩

theorem decimalDigits_eq (fuel n : Nat) (h : n < fuel) :
    decimalDigits fuel n = if n = 0 then [0] else Nat.digits 10 n := by
  induction fuel generalizing n with
  | zero => omega
  | succ fuel ih =>
    unfold decimalDigits
    by_cases h0 : n = 0
    · subst h0
      simp
    · rw [if_neg h0, Nat.digits_def' (by decide) (Nat.pos_of_ne_zero h0)]
      by_cases hq : n / 10 = 0
      · simp [hq]
      · rw [if_neg hq, ih (n / 10) (by omega), if_neg hq]

theorem showNat_eq (n : Nat) (h : n ≠ 0) :
    showNat n = ((Nat.digits 10 n).reverse).map digitChar := by
  unfold showNat
  rw [decimalDigits_eq _ _ (Nat.lt_succ_self n), if_neg h]

/-- The nine decimal digits of a limb, least significant first. -/
theorem showPadded_eq (n : Nat) :
    showPadded BASE_DIGITS n
      = ((Nat.digits 10 n ++ List.replicate (9 - (Nat.digits 10 n).length) 0).reverse).map
          digitChar := by
  unfold showPadded showNat BASE_DIGITS
  rw [decimalDigits_eq _ _ (Nat.lt_succ_self n)]
  by_cases h0 : n = 0
  · subst h0
    rw [if_pos rfl, Nat.digits_zero]
    decide
  · rw [if_neg h0]
    simp only [List.length_map, List.length_reverse, List.reverse_append,
      List.reverse_replicate, List.map_append, List.map_replicate]
    rfl

theorem digits_length_le_nine {d : Nat} (hd : d < BASE) : (Nat.digits 10 d).length ≤ 9 := by
  by_cases h0 : d = 0
  · subst h0
    simp
  · have h1 := Nat.base_pow_length_digits_le 10 d (by decide) h0
    rw [BASE_eq] at hd
    have h2 : 10 ^ (Nat.digits 10 d).length < 10 ^ 10 := by omega
    have h3 := (Nat.pow_lt_pow_iff_right (by decide : 1 < 10)).1 h2
    omega

theorem digits_limb_append {d m : Nat} (hd : d < BASE) (hm : 0 < m) :
    Nat.digits 10 (d + BASE * m)
      = Nat.digits 10 d ++ List.replicate (9 - (Nat.digits 10 d).length) 0 ++ Nat.digits 10 m := by
  have hl := digits_length_le_nine hd
  rw [Nat.digits_append_zeroes_append_digits (by decide) hm]
  have e : (Nat.digits 10 d).length + (9 - (Nat.digits 10 d).length) = 9 := by omega
  rw [e]
  rfl

/-- The decimal digits of the number that a limb sequence denotes: nine digits for every
limb but the most significant one, then the digits of the most significant limb. -/
theorem digits_mag (ds : List Nat) (hb : bounded ds) (hne : ds ≠ [])
    (hlast : ds.getLastD 0 ≠ 0) :
    Nat.digits 10 (mag ds)
      = ((ds.dropLast).map
          (fun d => Nat.digits 10 d ++ List.replicate (9 - (Nat.digits 10 d).length) 0)).flatten
        ++ Nat.digits 10 (ds.getLastD 0) := by
  induction ds with
  | nil => exact absurd rfl hne
  | cons d tail ih =>
    cases tail with
    | nil => simp
    | cons d2 rest =>
      have hb2 := bounded_cons.1 hb
      have hl2 : (d2 :: rest).getLastD 0 ≠ 0 := by
        simpa [List.getLastD_cons] using hlast
      have h := ih hb2.2 (by simp) hl2
      have hm : 0 < mag (d2 :: rest) := by
        apply Nat.pos_of_ne_zero
        intro h0
        rw [h0, Nat.digits_zero] at h
        have h5 := congrArg List.length h
        simp only [List.length_nil, List.length_append] at h5
        have h6 : (Nat.digits 10 ((d2 :: rest).getLastD 0)).length ≠ 0 := by
          intro h7
          exact hl2 (Nat.digits_eq_nil_iff_eq_zero.1 (List.length_eq_zero.1 h7))
        omega
      rw [mag_cons, digits_limb_append hb2.1 hm, h]
      simp [List.getLastD_cons]

theorem getLastD_ne_zero {ds : List Nat} (h : normal ds) (h0 : ds ≠ [0]) :
    ds.getLastD 0 ≠ 0 := by
  obtain ⟨hne, _, hl⟩ := h
  intro hz
  have e : ds.getLast? = some (ds.getLastD 0) := by
    cases ds with
    | nil => exact absurd rfl hne
    | cons d t => simp [List.getLast?_cons, List.getLastD_cons]
  rw [hz] at e
  by_cases h1 : 1 < ds.length
  · exact hl h1 e
  · cases ds with
    | nil => exact absurd rfl hne
    | cons d t =>
      have : t = [] := List.length_eq_zero.1 (by
        simp only [List.length_cons] at h1; omega)
      subst this
      simp at e
      exact h0 (by rw [e])

theorem operator_out_spec {x : int2048} (hx : canonical x) :
    operator_out x = numeral (value x) := by
  obtain ⟨hn, hs⟩ := hx
  by_cases h0 : x.digits = [0]
  · obtain ⟨xd, xs⟩ := x
    simp only at h0 hs hn
    subst h0
    rw [hs rfl]
    decide
  · have hlast := getLastD_ne_zero hn h0
    have hmag : mag x.digits ≠ 0 := fun h => h0 ((mag_eq_zero_iff hn).1 h)
    have hd := digits_mag x.digits hn.2.1 hn.1 hlast
    have hv : (value x).natAbs = mag x.digits := by
      unfold value
      split <;> simp
    have hneg : (value x < 0) ↔ x.sign = true := by
      unfold value
      split
      · rename_i h; simp [h]; omega
      · rename_i h; simp [h]
    have hv0 : value x ≠ 0 := by
      intro h
      rw [h] at hv
      exact hmag hv.symm
    have hsign : (if value x < 0 then ['-'] else [])
        = (if x.sign = true then ['-'] else ([] : List Char)) := by
      by_cases hsg : x.sign = true
      · rw [if_pos hsg, if_pos (hneg.2 hsg)]
      · rw [if_neg hsg, if_neg (fun h => hsg (hneg.1 h))]
    have hpad : (List.map (showPadded BASE_DIGITS) x.digits.dropLast.reverse).flatten
        = List.map digitChar ((List.map
            (fun d => Nat.digits 10 d ++ List.replicate (9 - (Nat.digits 10 d).length) 0)
            x.digits.dropLast).flatten).reverse := by
      simp only [List.reverse_flatten, List.map_flatten, List.map_reverse, List.map_map]
      congr 2
      apply List.map_congr_left
      intro d _
      simp only [Function.comp]
      rw [showPadded_eq]
    unfold operator_out numeral
    rw [if_neg hv0, hv, hd, showNat_eq _ hlast, hsign, hpad, List.reverse_append,
      List.map_append, List.append_assoc]

theorem digitChar_ne_zero {d : Nat} (h1 : d ≠ 0) (h2 : d < 10) : digitChar d ≠ '0' := by
  interval_cases d <;> first | exact absurd rfl h1 | decide

theorem digitChar_ne_minus {d : Nat} (h2 : d < 10) : digitChar d ≠ '-' := by
  interval_cases d <;> decide

/-- The shape of the canonical numeral: `"0"` for zero; otherwise an optional `'-'`,
present exactly for negative numbers, followed by digits that do not start with `'0'`. -/
theorem numeral_shape (z : Int) :
    (z = 0 → numeral z = ['0']) ∧ (numeral z).head? ≠ none ∧
      ((numeral z).head? = some '-' ↔ z < 0) ∧
      (z ≠ 0 → ((numeral z).drop (if z < 0 then 1 else 0)).head? ≠ some '0') := by
  by_cases h0 : z = 0
  · subst h0
    decide
  · have hn : z.natAbs ≠ 0 := Int.natAbs_ne_zero.2 h0
    have hne : Nat.digits 10 z.natAbs ≠ [] := Nat.digits_ne_nil_iff_ne_zero.2 hn
    have hlast := Nat.getLast_digit_ne_zero 10 hn
    have hlt : (Nat.digits 10 z.natAbs).getLast hne < 10 :=
      Nat.digits_lt_base (by decide) (List.getLast_mem hne)
    have hhead : (((Nat.digits 10 z.natAbs).reverse).map digitChar).head?
        = some (digitChar ((Nat.digits 10 z.natAbs).getLast hne)) := by
      rw [List.head?_map, List.head?_reverse, List.getLast?_eq_getLast _ hne]
      rfl
    unfold numeral
    rw [if_neg h0]
    refine ⟨fun h => absurd h h0, ?_, ?_, fun _ => ?_⟩
    · by_cases hz : z < 0
      · simp [hz]
      · simp only [hz, if_false, List.nil_append, hhead]
        simp
    · by_cases hz : z < 0
      · simp [hz]
      · simp only [hz, if_false, List.nil_append, hhead, iff_false]
        intro h
        injection h with h
        exact digitChar_ne_minus hlt h
    · by_cases hz : z < 0
      · simp only [hz, if_true, List.singleton_append, List.drop_succ_cons, List.drop_zero,
          hhead]
        intro h
        injection h with h
        exact digitChar_ne_zero hlast hlt h
      · simp only [hz, if_false, List.nil_append, List.drop_zero, hhead]
        intro h
        injection h with h
        exact digitChar_ne_zero hlast hlt h

/-! ### Long division -/

theorem mulLimbLoop_spec (m : Nat) (ys : List Nat) (carry : Nat) :
    mag (mulLimbLoop m ys carry) = mag ys * m + carry ∧ bounded (mulLimbLoop m ys carry) := by
  induction ys generalizing carry with
  | nil =>
    unfold mulLimbLoop
    have := carryLimbs_spec carry carry (le_refl _)
    exact ⟨by simpa using this.1, this.2⟩
  | cons y ys ih =>
    unfold mulLimbLoop
    obtain ⟨h1, h2⟩ := ih ((carry + y * m) / BASE)
    refine ⟨?_, bounded_cons.2 ⟨Nat.mod_lt _ BASE_pos, h2⟩⟩
    rw [mag_cons, h1, mag_cons]
    have := Nat.mod_add_div (carry + y * m) BASE
    nlinarith

theorem mulLimb_spec (b : int2048) (m : Nat) :
    mag (mulLimb b m).digits = mag b.digits * m ∧ normal (mulLimb b m).digits := by
  obtain ⟨h1, h2⟩ := mulLimbLoop_spec m b.digits 0
  have hn := normalize_digits_spec ⟨mulLimbLoop m b.digits 0, false⟩
  refine ⟨?_, hn.2.1 h2⟩
  show mag (normalize _).digits = _
  rw [hn.1]
  simpa using h1

/-- The binary search of `operator/` returns the largest multiplier `d` with
`d * |b| <= current`, when the search interval brackets it. -/
theorem searchLimb_spec (b current : int2048) (hc : normal current.digits)
    (fuel left right : Nat) (hlr : left ≤ right) (hf : right - left ≤ fuel)
    (hlo : mag b.digits * left ≤ mag current.digits)
    (hhi : mag current.digits < mag b.digits * (right + 1)) :
    mag b.digits * searchLimb b current fuel left right ≤ mag current.digits ∧
      mag current.digits < mag b.digits * (searchLimb b current fuel left right + 1) := by
  induction fuel generalizing left right with
  | zero =>
    have : left = right := by omega
    subst this
    exact ⟨hlo, hhi⟩
  | succ fuel ih =>
    unfold searchLimb
    by_cases hlt : left < right
    · simp only [hlt, if_true]
      obtain ⟨m1, m2⟩ := mulLimb_spec b ((left + right + 1) / 2)
      rw [compareAbs_spec hc m2, m1]
      unfold cmpNat
      by_cases hp : mag b.digits * ((left + right + 1) / 2) ≤ mag current.digits
      · have hcond : (0 : Int) ≤ (if mag current.digits < mag b.digits * ((left + right + 1) / 2)
            then -1 else if mag current.digits = mag b.digits * ((left + right + 1) / 2)
            then 0 else 1) := by
          rw [if_neg (by omega)]
          split <;> decide
        rw [if_pos hcond]
        exact ih _ _ (by omega) (by omega) hp hhi
      · have hcond : ¬ (0 : Int) ≤ (if mag current.digits
            < mag b.digits * ((left + right + 1) / 2)
            then -1 else if mag current.digits = mag b.digits * ((left + right + 1) / 2)
            then 0 else 1) := by
          rw [if_pos (by omega)]
          decide
        rw [if_neg hcond]
        have e : (left + right + 1) / 2 - 1 + 1 = (left + right + 1) / 2 := by omega
        exact ih _ _ (by omega) (by omega) hlo (by rw [e]; omega)
    · have : left = right := by omega
      subst this
      simp only [hlt, if_false]
      exact ⟨hlo, hhi⟩

theorem mag_reverse_cons (x : Nat) (xs : List Nat) :
    mag (x :: xs).reverse = mag xs.reverse + BASE ^ xs.length * x := by
  rw [List.reverse_cons, mag_append, List.length_reverse]
  simp

theorem bounded_reverse {ds : List Nat} (h : bounded ds) : bounded ds.reverse :=
  fun d hd => h d (List.mem_reverse.1 hd)

theorem div_step_arith {M P x B Q c c2 l D : Nat} (h : c2 + D * l = x + B * c) :
    M + P * x + P * B * (D * Q + c) = M + P * (D * (l + B * Q) + c2) := by
  have e1 : M + P * (D * (l + B * Q) + c2) = M + P * (c2 + D * l) + P * B * (D * Q) := by ring
  rw [e1, h]
  ring

/-- The long-division loop: with a remainder below `|b|` on entry, the loop extends the
quotient limb by limb and ends with a remainder below `|b|`.  `rest` holds the limbs of
the dividend not yet consumed, most significant first, and `res` the quotient limbs
already written, least significant first. -/
theorem divLoop_spec (b : int2048) (rest : List Nat)
    (current : int2048) (res : List Nat) (hrest : bounded rest)
    (hcur : bounded current.digits) (hlt : mag current.digits < mag b.digits) :
    mag rest.reverse + BASE ^ rest.length * (mag b.digits * mag res + mag current.digits)
        = mag b.digits * mag (divLoop b rest current res).1
          + mag (divLoop b rest current res).2.digits ∧
      mag (divLoop b rest current res).2.digits < mag b.digits := by
  induction rest generalizing current res with
  | nil =>
    rw [divLoop]
    simp only [List.reverse_nil, mag_nil, List.length_nil, pow_zero, Nat.zero_add, Nat.one_mul]
    exact ⟨trivial, hlt⟩
  | cons ai rest ih =>
    rw [divLoop]
    have hr := bounded_cons.1 hrest
    have hn := normalize_digits_spec { current with digits := ai :: current.digits }
    have hnorm : normal (normalize { current with digits := ai :: current.digits }).digits :=
      hn.2.1 (bounded_cons.2 ⟨hr.1, hcur⟩)
    have hmag : mag (normalize { current with digits := ai :: current.digits }).digits
        = ai + BASE * mag current.digits := by
      rw [hn.1]; rfl
    have hai := hr.1
    have hhi : mag (normalize { current with digits := ai :: current.digits }).digits
        < mag b.digits * (BASE - 1 + 1) := by
      rw [hmag]
      have e : BASE - 1 + 1 = BASE := by rw [BASE_eq]
      rw [e]
      have h1 : BASE * (mag current.digits + 1) ≤ BASE * mag b.digits :=
        Nat.mul_le_mul_left _ hlt
      nlinarith
    obtain ⟨s1, s2⟩ := searchLimb_spec b _ hnorm (BASE - 1) 0 (BASE - 1) (Nat.zero_le _)
      (by omega) (by simp) hhi
    generalize searchLimb b (normalize { current with digits := ai :: current.digits })
      (BASE - 1) 0 (BASE - 1) = left at s1 s2 ⊢
    obtain ⟨m1, m2⟩ := mulLimb_spec b left
    obtain ⟨d1, d2, _⟩ := subAbs_normal_spec hnorm m2 (by rw [m1]; exact s1)
    rw [m1] at d1
    have hlt2 : mag (subAbs (normalize { current with digits := ai :: current.digits })
        (mulLimb b left)).digits < mag b.digits := by
      nlinarith
    obtain ⟨i1, i2⟩ := ih _ (left :: res) hr.2 d2.2.1 hlt2
    refine ⟨?_, i2⟩
    rw [← i1, mag_reverse_cons, mag_cons, List.length_cons, pow_succ]
    rw [hmag] at d1
    generalize mag (subAbs (normalize { current with digits := ai :: current.digits })
      (mulLimb b left)).digits = c2 at d1 ⊢
    exact div_step_arith d1

theorem value_fix_zero (x : int2048) :
    value (if x.digits = [0] then { x with sign := false } else x) = value x := by
  split
  · rename_i h
    unfold value
    simp only [h]
    split <;> simp [mag]
  · rfl

/-- The long-division part of `operator/` returns the truncated quotient of the
magnitudes. -/
theorem longDivision_spec (a b : int2048) (ha : bounded a.digits) (hB : 0 < mag b.digits) :
    ∃ R : Nat, mag a.digits = mag b.digits * mag (longDivision a b).digits + R ∧
      R < mag b.digits := by
  obtain ⟨d1, d2⟩ := divLoop_spec b a.digits.reverse ⟨[], false⟩ []
    (bounded_reverse ha) bounded_nil hB
  simp only [List.reverse_reverse, mag_nil, Nat.mul_zero, Nat.add_zero] at d1
  have hn := normalize_digits_spec ⟨(divLoop b a.digits.reverse ⟨[], false⟩ []).1, false⟩
  refine ⟨mag (divLoop b a.digits.reverse ⟨[], false⟩ []).2.digits, ?_, d2⟩
  show _ = _ * mag (normalize _).digits + _
  rw [hn.1]
  exact d1

theorem value_sign_true (x : int2048) : value { x with sign := true } = -(mag x.digits : Int) := by
  simp [value]

theorem value_sign_false (x : int2048) : value { x with sign := false } = (mag x.digits : Int) := by
  simp [value]

theorem floorAdjust_value (q a b : int2048) (s : Bool) (hq : canonical q)
    (hqs : q.sign = false) (ha : normal a.digits) (hb : canonical b) :
    value (floorAdjust q a b s)
      = if s = true then
          -((mag q.digits + (if mag q.digits * mag b.digits = mag a.digits then 0 else 1) : Nat)
            : Int)
        else (mag q.digits : Int) := by
  unfold floorAdjust
  simp only
  rw [value_fix_zero]
  cases s with
  | true =>
    simp only [if_true]
    obtain ⟨m1, _, _⟩ := operator_mul_mag_sign hq hb
    have mc := (operator_mul_spec hq hb).2
    rw [compareAbs_spec mc.1 ha, m1]
    unfold cmpNat
    by_cases he : mag q.digits * mag b.digits = mag a.digits
    · simp only [he, lt_irrefl, if_false, if_true, ne_eq, not_true_eq_false]
      rw [value_sign_true]
      simp
    · have hne : (if mag q.digits * mag b.digits < mag a.digits then (-1 : Int)
          else if mag q.digits * mag b.digits = mag a.digits then 0 else 1) ≠ 0 := by
        rw [if_neg he]
        split <;> decide
      rw [if_pos hne, if_neg he, value_sign_true]
      have h1 : q.sign = (ofLongLong 1).sign := by rw [hqs]; rfl
      have h2 := (add_same_sign h1).2
      show -((mag (add q (ofLongLong 1)).digits : Nat) : Int) = _
      rw [h2]
      rfl
  | false =>
    simp only [Bool.false_eq_true, if_false]
    rw [value_sign_false]

theorem operator_div_small {a b : int2048} (ha : canonical a) (hb : canonical b)
    (h : mag a.digits < mag b.digits) :
    operator_div a b = if (a.sign != b.sign) = true then ofLongLong (-1) else ofLongLong 0 := by
  have hc : compareAbs { a with sign := false } { b with sign := false } < 0 := by
    rw [compareAbs_spec (a := { a with sign := false }) (b := { b with sign := false })
      ha.1 hb.1]
    unfold cmpNat
    rw [if_pos h]
    decide
  unfold operator_div
  simp only [hc, if_true]

/-- The quotient of the long-division path of `operator/`: the truncated quotient `Q` of
the magnitudes when the signs agree, and minus the quotient rounded up when they differ. -/
theorem operator_div_large {a b : int2048} (ha : canonical a) (hb : canonical b)
    (h : mag b.digits ≤ mag a.digits) (hB : 0 < mag b.digits) :
    ∃ Q R : Nat, mag a.digits = mag b.digits * Q + R ∧ R < mag b.digits ∧
      value (operator_div a b)
        = if (a.sign != b.sign) = true then -((Q + (if R = 0 then 0 else 1) : Nat) : Int)
          else (Q : Int) := by
  have hc : ¬ compareAbs { a with sign := false } { b with sign := false } < 0 := by
    rw [compareAbs_spec (a := { a with sign := false }) (b := { b with sign := false })
      ha.1 hb.1]
    unfold cmpNat
    rw [if_neg (Nat.not_lt.2 h)]
    split <;> decide
  obtain ⟨R, r1, r2⟩ := longDivision_spec { a with sign := false } { b with sign := false }
    ha.1.2.1 hB
  obtain ⟨q1, q2⟩ := longDivision_canonical { a with sign := false } { b with sign := false }
  have hv := floorAdjust_value _ { a with sign := false } { b with sign := false }
    (a.sign != b.sign) q1 q2 ha.1 ⟨hb.1, fun _ => rfl⟩
  refine ⟨_, R, r1, r2, ?_⟩
  unfold operator_div
  simp only [hc, if_false]
  rw [hv]
  have e : (mag (longDivision { a with sign := false } { b with sign := false }).digits
      * mag b.digits = mag a.digits) ↔ R = 0 := by
    have r1' : mag a.digits = mag b.digits
        * mag (longDivision { a with sign := false } { b with sign := false }).digits + R := r1
    constructor
    · intro h1
      rw [Nat.mul_comm] at h1
      omega
    · intro h1
      rw [Nat.mul_comm]
      omega
  simp only [e]

theorem isFloorQuotient_of_decomp {a b q r : Int} (h : a = b * q + r)
    (hr : inRemainderRange b r) : isFloorQuotient a b q := by
  have e : b * (q + 1) = b * q + b := by ring
  constructor
  · intro hb
    obtain ⟨h1, h2⟩ := hr.1 hb
    rw [e]
    constructor <;> linarith
  · intro hb
    obtain ⟨h1, h2⟩ := hr.2 hb
    rw [e]
    constructor <;> linarith

theorem decomp_small {A B : Nat} (sa sb : Bool) (hAB : A < B) (hA : sa = true → A ≠ 0)
    (hne : A ≠ 0 ∨ sb = false) :
    ∃ r : Int, (if sa = true then -(A : Int) else A)
        = (if sb = true then -(B : Int) else B) * (if (sa != sb) = true then -1 else 0) + r ∧
      inRemainderRange (if sb = true then -(B : Int) else B) r := by
  unfold inRemainderRange
  cases sa <;> cases sb
  · exact ⟨A, by simp, by simp; omega⟩
  · refine ⟨(A : Int) - B, by simp, ?_⟩
    have : A ≠ 0 := by simpa using hne
    simp
    omega
  · refine ⟨(B : Int) - A, by simp; ring, ?_⟩
    have : A ≠ 0 := hA rfl
    simp
    omega
  · exact ⟨-(A : Int), by simp, by simp; omega⟩

theorem decomp_large {A B Q R : Nat} (sa sb : Bool) (h : A = B * Q + R) (hR : R < B) :
    ∃ r : Int, (if sa = true then -(A : Int) else A)
        = (if sb = true then -(B : Int) else B)
          * (if (sa != sb) = true then -((Q + (if R = 0 then 0 else 1) : Nat) : Int)
              else (Q : Int)) + r ∧
      inRemainderRange (if sb = true then -(B : Int) else B) r := by
  have hA : (A : Int) = (B : Int) * (Q : Int) + (R : Int) := by exact_mod_cast h
  unfold inRemainderRange
  cases sa <;> cases sb
  · refine ⟨R, by simpa using hA, ?_⟩
    simp
    omega
  · by_cases hz : R = 0
    · refine ⟨0, ?_, by simp⟩
      subst hz
      simp at hA ⊢
      linarith
    · refine ⟨(R : Int) - B, ?_, by simp; omega⟩
      simp [hz]
      linarith
  · by_cases hz : R = 0
    · refine ⟨0, ?_, by simp⟩
      subst hz
      simp at hA ⊢
      linarith
    · refine ⟨(B : Int) - R, ?_, by simp; omega⟩
      simp [hz]
      linarith
  · refine ⟨-(R : Int), ?_, by simp; omega⟩
    simp
    linarith

/-- Away from the missed case (dividend zero with a negative divisor), `operator/`
and the exact quotient differ by a remainder between zero and the divisor. -/
theorem operator_div_decomp {a b : int2048} (ha : canonical a) (hb : canonical b)
    (hb0 : value b ≠ 0) (hne : value a ≠ 0 ∨ 0 < value b) :
    ∃ r : Int, value a = value b * value (operator_div a b) + r ∧
      inRemainderRange (value b) r := by
  have hB : 0 < mag b.digits := by
    apply Nat.pos_of_ne_zero
    intro h
    apply hb0
    unfold value
    rw [h]
    simp
  have hA : a.sign = true → mag a.digits ≠ 0 := by
    intro hs hm
    have := ha.2 ((mag_eq_zero_iff ha.1).1 hm)
    rw [hs] at this
    cases this
  have hne2 : mag a.digits ≠ 0 ∨ b.sign = false := by
    rcases hne with h | h
    · left
      intro hm
      apply h
      unfold value
      rw [hm]
      simp
    · right
      cases hs : b.sign
      · rfl
      · unfold value at h
        rw [hs] at h
        simp at h
        omega
  by_cases hlt : mag a.digits < mag b.digits
  · rw [operator_div_small ha hb hlt]
    have e : value (if (a.sign != b.sign) = true then ofLongLong (-1) else ofLongLong 0)
        = if (a.sign != b.sign) = true then (-1 : Int) else 0 := by
      split <;> decide
    rw [e]
    exact decomp_small a.sign b.sign hlt hA hne2
  · obtain ⟨Q, R, h1, h2, h3⟩ := operator_div_large ha hb (by omega) hB
    rw [h3]
    exact decomp_large a.sign b.sign h1 h2

/-- Away from the missed case (dividend zero with a negative divisor), `operator/` returns
the floor of the exact quotient. -/
theorem operator_div_floor {a b : int2048} (ha : canonical a) (hb : canonical b)
    (hb0 : value b ≠ 0) (hne : value a ≠ 0 ∨ 0 < value b) :
    isFloorQuotient (value a) (value b) (value (operator_div a b)) := by
  obtain ⟨r, h1, h2⟩ := operator_div_decomp ha hb hb0 hne
  exact isFloorQuotient_of_decomp h1 h2

/-- Away from the missed case, the remainder that `operator%` returns lies between zero
and the divisor. -/
theorem operator_mod_range {a b : int2048} (ha : canonical a) (hb : canonical b)
    (hb0 : value b ≠ 0) (hne : value a ≠ 0 ∨ 0 < value b) :
    inRemainderRange (value b) (value (operator_mod a b)) := by
  obtain ⟨r, h1, h2⟩ := operator_div_decomp ha hb hb0 hne
  have h3 := (operator_mod_spec ha hb).1
  have e : value (operator_mod a b) = r := by
    rw [h3]
    linarith
  rw [e]
  exact h2

/-! ### Ordering and algebraic laws -/

theorem compareLoop_antisymm (xs ys : List Nat) : compareLoop ys xs = - compareLoop xs ys := by
  induction xs generalizing ys with
  | nil =>
    cases ys <;> simp [compareLoop]
  | cons x xs ih =>
    cases ys with
    | nil => simp [compareLoop]
    | cons y ys =>
      unfold compareLoop
      by_cases h : x = y
      · subst h
        simp only [ne_eq, not_true_eq_false, if_false]
        exact ih ys
      · have h' : ¬ y = x := fun e => h e.symm
        simp only [ne_eq, h, h', not_false_eq_true, if_true]
        by_cases hlt : x < y
        · rw [if_pos hlt, if_neg (by omega)]
          rfl
        · rw [if_neg hlt, if_pos (by omega)]

theorem compareLoop_eq_zero_iff (xs ys : List Nat) (hl : xs.length = ys.length) :
    compareLoop xs ys = 0 ↔ xs = ys := by
  induction xs generalizing ys with
  | nil =>
    cases ys with
    | nil => simp [compareLoop]
    | cons y ys => simp at hl
  | cons x xs ih =>
    cases ys with
    | nil => simp at hl
    | cons y ys =>
      unfold compareLoop
      by_cases h : x = y
      · subst h
        simp only [ne_eq, not_true_eq_false, if_false, List.cons.injEq, true_and]
        exact ih ys (by simpa using hl)
      · simp only [ne_eq, h, not_false_eq_true, if_true, List.cons.injEq, false_and, iff_false]
        split <;> decide

theorem compareAbs_antisymm (a b : int2048) : compareAbs b a = - compareAbs a b := by
  unfold compareAbs
  by_cases hl : a.digits.length = b.digits.length
  · rw [if_neg (by simpa using hl.symm), if_neg (by simpa using hl)]
    exact compareLoop_antisymm _ _
  · have hl' : ¬ b.digits.length = a.digits.length := fun e => hl e.symm
    rw [if_pos hl', if_pos hl]
    by_cases hlt : a.digits.length < b.digits.length
    · rw [if_pos hlt, if_neg (by omega)]
      rfl
    · rw [if_neg hlt, if_pos (by omega)]

theorem compareAbs_eq_zero_iff (a b : int2048) : compareAbs a b = 0 ↔ a.digits = b.digits := by
  unfold compareAbs
  by_cases hl : a.digits.length = b.digits.length
  · rw [if_neg (by simpa using hl)]
    rw [compareLoop_eq_zero_iff _ _ (by simpa using hl)]
    exact List.reverse_inj
  · rw [if_pos hl]
    constructor
    · intro h
      split at h <;> cases h
    · intro h
      exact absurd (congrArg List.length h) hl

theorem operator_lt_of_sign_ne {a b : int2048} (h : a.sign ≠ b.sign) :
    operator_lt a b = a.sign := by
  unfold operator_lt
  rw [if_pos h]

theorem operator_lt_neg {a b : int2048} (ha : a.sign = true) (hb : b.sign = true) :
    operator_lt a b = decide (0 < compareAbs a b) := by
  unfold operator_lt
  rw [if_neg (by rw [ha, hb]; simp)]
  simp only [ha, if_true]

theorem operator_lt_pos {a b : int2048} (ha : a.sign = false) (hb : b.sign = false) :
    operator_lt a b = decide (compareAbs a b < 0) := by
  unfold operator_lt
  rw [if_neg (by rw [ha, hb]; simp)]
  simp only [ha, Bool.false_eq_true, if_false]

/-- Exactly one of `a < b`, `a == b` and `a > b` holds, for all values of the two fields. -/
theorem trichotomy (a b : int2048) :
    (operator_lt a b = true ∨ operator_eq a b = true ∨ operator_gt a b = true) ∧
      ¬ (operator_lt a b = true ∧ operator_eq a b = true) ∧
      ¬ (operator_lt a b = true ∧ operator_gt a b = true) ∧
      ¬ (operator_eq a b = true ∧ operator_gt a b = true) := by
  have hanti := compareAbs_antisymm a b
  have hzero := compareAbs_eq_zero_iff a b
  have heq := operator_eq_iff a b
  have hab : a = b ↔ (a.sign = b.sign ∧ a.digits = b.digits) := by
    obtain ⟨ad, as⟩ := a
    obtain ⟨bd, bs⟩ := b
    simp [and_comm]
  rw [heq, hab]
  unfold operator_gt
  rcases hsa : a.sign with _ | _ <;> rcases hsb : b.sign with _ | _
  · rw [operator_lt_pos hsa hsb, operator_lt_pos hsb hsa, hanti, ← hzero]
    simp only [decide_eq_true_eq, true_and]
    omega
  · rw [operator_lt_of_sign_ne (by rw [hsa, hsb]; simp),
      operator_lt_of_sign_ne (by rw [hsa, hsb]; simp), hsa, hsb]
    simp
  · rw [operator_lt_of_sign_ne (by rw [hsa, hsb]; simp),
      operator_lt_of_sign_ne (by rw [hsa, hsb]; simp), hsa, hsb]
    simp
  · rw [operator_lt_neg hsa hsb, operator_lt_neg hsb hsa, hanti, ← hzero]
    simp only [decide_eq_true_eq, true_and]
    omega

theorem sign_true_mag_pos {a : int2048} (ha : canonical a) (hs : a.sign = true) :
    0 < mag a.digits := by
  apply Nat.pos_of_ne_zero
  intro hm
  have := ha.2 ((mag_eq_zero_iff ha.1).1 hm)
  rw [hs] at this
  cases this

theorem operator_lt_spec {a b : int2048} (ha : canonical a) (hb : canonical b) :
    operator_lt a b = true ↔ value a < value b := by
  have hc := compareAbs_spec ha.1 hb.1
  unfold cmpNat at hc
  rcases hsa : a.sign with _ | _ <;> rcases hsb : b.sign with _ | _
  · rw [operator_lt_pos hsa hsb, hc]
    unfold value
    simp only [hsa, hsb, Bool.false_eq_true, if_false, decide_eq_true_eq]
    split
    · simp; omega
    · split <;> simp <;> omega
  · rw [operator_lt_of_sign_ne (by rw [hsa, hsb]; simp), hsa]
    have := sign_true_mag_pos hb hsb
    unfold value
    simp only [hsa, hsb, Bool.false_eq_true, if_false, if_true, false_iff]
    omega
  · rw [operator_lt_of_sign_ne (by rw [hsa, hsb]; simp), hsa]
    have := sign_true_mag_pos ha hsa
    unfold value
    simp only [hsa, hsb, Bool.false_eq_true, if_false, if_true, true_iff]
    omega
  · rw [operator_lt_neg hsa hsb, hc]
    unfold value
    simp only [hsa, hsb, if_true, decide_eq_true_eq]
    split
    · simp; omega
    · split <;> simp <;> omega

theorem operator_eq_spec {a b : int2048} (ha : canonical a) (hb : canonical b) :
    operator_eq a b = true ↔ value a = value b := by
  rw [operator_eq_iff]
  exact ⟨fun h => by rw [h], canonical_inj ha hb⟩

theorem addLoop_nil_right (a : List Nat) (carry : Nat) :
    addLoop a [] carry = addLoopTail a carry := by
  induction a generalizing carry with
  | nil => rfl
  | cons x xs ih =>
    unfold addLoop addLoopTail
    rw [ih]

theorem addLoop_comm (a b : List Nat) (carry : Nat) : addLoop a b carry = addLoop b a carry := by
  induction a generalizing b carry with
  | nil =>
    rw [addLoop_nil_right]
    rfl
  | cons x xs ih =>
    cases b with
    | nil =>
      rw [addLoop_nil_right]
      rfl
    | cons y ys =>
      unfold addLoop
      rw [Nat.add_right_comm carry x y, ih]

/-- Addition is commutative on representations, for all values of the two fields. -/
theorem add_comm_all (a b : int2048) : add a b = add b a := by
  unfold add
  by_cases hs : a.sign = b.sign
  · rw [if_pos hs, if_pos hs.symm]
    unfold addAbs
    rw [addLoop_comm, hs]
  · have hs' : ¬ b.sign = a.sign := fun e => hs e.symm
    rw [if_neg hs, if_neg hs']
    simp only
    rw [compareAbs_antisymm a b]
    by_cases h0 : compareAbs a b = 0
    · simp [h0]
    · by_cases hp : 0 < compareAbs a b
      · rw [if_neg h0, if_pos hp, if_neg (by omega), if_neg (by omega)]
      · rw [if_neg h0, if_neg hp, if_neg (by omega), if_pos (by omega)]

/-- Multiplication is commutative on representations, for limbs below `BASE`. -/
theorem operator_mul_comm {a b : int2048} (ha : bounded a.digits) (hb : bounded b.digits) :
    operator_mul a b = operator_mul b a := by
  obtain ⟨h1, h2, h3⟩ := multiplyAbs_spec ha hb
  obtain ⟨g1, g2, g3⟩ := multiplyAbs_spec hb ha
  have hd : (multiplyAbs a b).digits = (multiplyAbs b a).digits :=
    normal_inj h2 g2 (by rw [h1, g1, Nat.mul_comm])
  have hsg : (a.sign != b.sign) = (b.sign != a.sign) := by
    cases a.sign <;> cases b.sign <;> rfl
  unfold operator_mul
  simp only [hd, hsg]

/-- A value plus its negation is the canonical zero, unless the value is a negative
zero, which the canonical form excludes. -/
theorem add_neg_self {a : int2048} (h : a.digits = [0] → a.sign = false) :
    add a (operator_neg a) = zero := by
  by_cases h0 : a.digits = [0]
  · have hs := h h0
    obtain ⟨ad, as⟩ := a
    simp only at h0 hs
    subst h0 hs
    decide
  · unfold operator_neg
    rw [if_pos h0]
    unfold add
    have hs : ¬ a.sign = (!a.sign) := by cases a.sign <;> simp
    rw [if_neg hs]
    have hc : compareAbs a { a with sign := !a.sign } = 0 :=
      (compareAbs_eq_zero_iff _ _).2 rfl
    simp only [hc, if_true]
    exact ofLongLong_zero

/-! ### Karatsuba against schoolbook, and the recursion measure -/

theorem multiplyAbsAux_eq_at (fuel : Nat) (a b : int2048) :
    multiplyAbsAux fuel a b = multiplyAbsAt KARATSUBA_THRESHOLD fuel a b := by
  induction fuel generalizing a b with
  | zero =>
    unfold multiplyAbsAux multiplyAbsAt
    rfl
  | succ fuel ih =>
    unfold multiplyAbsAux multiplyAbsAt
    simp only [ih]

/-- With any threshold of at least three limbs the recursion ends within
`max(a.size(), b.size())` levels, and the result is the canonical limb sequence of the
product. -/
theorem multiplyAbsAt_spec (t : Nat) (ht : 3 ≤ t) (fuel : Nat) (a b : int2048)
    (ha : bounded a.digits) (hb : bounded b.digits)
    (hf : max a.digits.length b.digits.length ≤ fuel) :
    ∃ r, multiplyAbsAt t fuel a b = some r ∧ mag r.digits = mag a.digits * mag b.digits ∧
      normal r.digits ∧ r.sign = false := by
  induction fuel generalizing a b with
  | zero =>
    have h : a.digits.length ≤ t ∨ b.digits.length ≤ t := by
      left; omega
    refine ⟨schoolbook a b, ?_, schoolbook_spec ha hb⟩
    unfold multiplyAbsAt
    rw [if_pos h]
  | succ fuel ih =>
    by_cases h : a.digits.length ≤ t ∨ b.digits.length ≤ t
    · refine ⟨schoolbook a b, ?_, schoolbook_spec ha hb⟩
      unfold multiplyAbsAt
      rw [if_pos h]
    · have hmid : 1 ≤ max a.digits.length b.digits.length / 2 := by omega
      obtain ⟨la1, la2, la3⟩ := lowPart_spec ha (max a.digits.length b.digits.length / 2) hmid
      obtain ⟨lb1, lb2, lb3⟩ := lowPart_spec hb (max a.digits.length b.digits.length / 2) hmid
      obtain ⟨ha1, ha2, ha3⟩ := highPart_spec ha (max a.digits.length b.digits.length / 2)
      obtain ⟨hb1, hb2, hb3⟩ := highPart_spec hb (max a.digits.length b.digits.length / 2)
      have sa := addAbs_length_le la1.2.1 ha1.2.1
      have sb := addAbs_length_le lb1.2.1 hb1.2.1
      obtain ⟨z0, r0, m0, n0, _⟩ := ih _ _ la1.2.1 lb1.2.1 (by omega)
      obtain ⟨z2, r2, m2, n2, _⟩ := ih _ _ ha1.2.1 hb1.2.1 (by omega)
      obtain ⟨z1, r1, m1, n1, _⟩ := ih
        (addAbs (lowPart a (max a.digits.length b.digits.length / 2))
          (highPart a (max a.digits.length b.digits.length / 2)))
        (addAbs (lowPart b (max a.digits.length b.digits.length / 2))
          (highPart b (max a.digits.length b.digits.length / 2)))
        (addAbs_spec _ _).2.1 (addAbs_spec _ _).2.1 (by omega)
      rw [(addAbs_spec _ _).1, (addAbs_spec _ _).1] at m1
      refine ⟨combine z0 z2 z1 (max a.digits.length b.digits.length / 2), ?_, ?_⟩
      · unfold multiplyAbsAt
        rw [if_neg h]
        simp only [r0, r2, r1]
      · have hc := combine_spec (max a.digits.length b.digits.length / 2) _ _ _ _ n0 n2 n1 m0 m2 m1
        rw [la3, ha3, lb3, hb3, mag_split, mag_split] at hc
        exact hc

theorem eq_schoolbook {r a b : int2048} (ha : bounded a.digits) (hb : bounded b.digits)
    (hm : mag r.digits = mag a.digits * mag b.digits) (hn : normal r.digits)
    (hs : r.sign = false) : r = schoolbook a b := by
  obtain ⟨s1, s2, s3⟩ := schoolbook_spec ha hb
  have hd : r.digits = (schoolbook a b).digits := normal_inj hn s2 (by rw [hm, s1])
  obtain ⟨rd, rs⟩ := r
  simp only at hd hs
  rw [hd, hs, ← s3]

theorem multiplyAbsAt_eq_schoolbook (t : Nat) (ht : 3 ≤ t) {a b : int2048}
    (ha : bounded a.digits) (hb : bounded b.digits) :
    multiplyAbsAt t (max a.digits.length b.digits.length) a b = some (schoolbook a b) := by
  obtain ⟨r, h1, h2, h3, h4⟩ := multiplyAbsAt_spec t ht _ a b ha hb (le_refl _)
  rw [h1, eq_schoolbook ha hb h2 h3 h4]

theorem multiplyAbs_eq_schoolbook {a b : int2048} (ha : bounded a.digits)
    (hb : bounded b.digits) : multiplyAbs a b = schoolbook a b := by
  obtain ⟨h2, h3, h4⟩ := multiplyAbs_spec ha hb
  exact eq_schoolbook ha hb h2 h3 h4

/-- The recursive case of `multiplyAbs`: with both operands above the threshold, the
three recursive calls are on the low parts, the high parts and the sums of the parts. -/
theorem multiplyAbsAux_recursive (fuel : Nat) (a b : int2048)
    (ha : KARATSUBA_THRESHOLD < a.digits.length) (hb : KARATSUBA_THRESHOLD < b.digits.length) :
    multiplyAbsAux (fuel + 1) a b
      = match
          multiplyAbsAux fuel (lowPart a (max a.digits.length b.digits.length / 2))
            (lowPart b (max a.digits.length b.digits.length / 2)),
          multiplyAbsAux fuel (highPart a (max a.digits.length b.digits.length / 2))
            (highPart b (max a.digits.length b.digits.length / 2)),
          multiplyAbsAux fuel
            (addAbs (lowPart a (max a.digits.length b.digits.length / 2))
              (highPart a (max a.digits.length b.digits.length / 2)))
            (addAbs (lowPart b (max a.digits.length b.digits.length / 2))
              (highPart b (max a.digits.length b.digits.length / 2))) with
        | some z0, some z2, some z1 =>
          some (combine z0 z2 z1 (max a.digits.length b.digits.length / 2))
        | _, _, _ => none := by
  have h : ¬ (a.digits.length ≤ KARATSUBA_THRESHOLD ∨ b.digits.length ≤ KARATSUBA_THRESHOLD) := by
    omega
  rw [multiplyAbsAux, if_neg h]

/-- The operands of the three recursive calls have fewer limbs than the larger of the
current operands, once both have more than three limbs. -/
theorem karatsuba_sizes {a b : int2048} (ha : bounded a.digits) (hb : bounded b.digits)
    (ha3 : 3 < a.digits.length) (hb3 : 3 < b.digits.length) :
    max (lowPart a (max a.digits.length b.digits.length / 2)).digits.length
        (lowPart b (max a.digits.length b.digits.length / 2)).digits.length
      < max a.digits.length b.digits.length ∧
    max (highPart a (max a.digits.length b.digits.length / 2)).digits.length
        (highPart b (max a.digits.length b.digits.length / 2)).digits.length
      < max a.digits.length b.digits.length ∧
    max (addAbs (lowPart a (max a.digits.length b.digits.length / 2))
          (highPart a (max a.digits.length b.digits.length / 2))).digits.length
        (addAbs (lowPart b (max a.digits.length b.digits.length / 2))
          (highPart b (max a.digits.length b.digits.length / 2))).digits.length
      < max a.digits.length b.digits.length := by
  have hmid : 1 ≤ max a.digits.length b.digits.length / 2 := by omega
  obtain ⟨la1, la2, _⟩ := lowPart_spec ha (max a.digits.length b.digits.length / 2) hmid
  obtain ⟨lb1, lb2, _⟩ := lowPart_spec hb (max a.digits.length b.digits.length / 2) hmid
  obtain ⟨ha1, ha2, _⟩ := highPart_spec ha (max a.digits.length b.digits.length / 2)
  obtain ⟨hb1, hb2, _⟩ := highPart_spec hb (max a.digits.length b.digits.length / 2)
  have sa := addAbs_length_le la1.2.1 ha1.2.1
  have sb := addAbs_length_le lb1.2.1 hb1.2.1
  refine ⟨?_, ?_, ?_⟩ <;> omega

/-! ### The constructor from `long long` -/

theorem limbsOf_nonpos (fuel : Nat) (x : Int) (hx : ¬ 0 < x) : limbsOf fuel x = [] := by
  cases fuel with
  | zero => rfl
  | succ fuel =>
    unfold limbsOf
    rw [if_neg hx]

/-- The limb loop of the constructor ends through its loop condition and yields the
canonical limb sequence of a positive `x`. -/
theorem limbsOf_spec (fuel : Nat) (x : Int) (hx : 0 < x) (hf : x.toNat ≤ fuel) :
    (mag (limbsOf fuel x) : Int) = x ∧ normal (limbsOf fuel x) := by
  induction fuel generalizing x with
  | zero => omega
  | succ fuel ih =>
    unfold limbsOf
    rw [if_pos hx]
    have hB : (BASE : Int) = 1000000000 := by rw [BASE_eq]; rfl
    have hmod : (x % (BASE : Int)).toNat < BASE := by
      rw [hB, BASE_eq]; omega
    by_cases hq : 0 < x / (BASE : Int)
    · obtain ⟨h1, h2⟩ := ih (x / (BASE : Int)) hq (by rw [hB] at hq ⊢; omega)
      refine ⟨?_, ?_⟩
      · rw [mag_cons]
        push_cast
        rw [h1, hB]
        omega
      · obtain ⟨n1, n2, n3⟩ := h2
        refine ⟨by simp, bounded_cons.2 ⟨hmod, n2⟩, ?_⟩
        intro _
        rcases hl : limbsOf fuel (x / (BASE : Int)) with _ | ⟨d, ds⟩
        · exact absurd hl n1
        · rw [List.getLast?_cons_cons]
          rw [hl] at n3 h1
          by_cases hds : 1 < (d :: ds).length
          · exact n3 hds
          · have : ds = [] := List.length_eq_zero.1 (by
              simp only [List.length_cons] at hds; omega)
            subst this
            simp only [List.getLast?_singleton, ne_eq, Option.some.injEq]
            intro hd
            subst hd
            simp only [mag_cons, mag_nil, Nat.mul_zero, Nat.add_zero, Nat.cast_zero] at h1
            omega
    · rw [limbsOf_nonpos _ _ hq]
      have hxlt : x < 1000000000 := by
        rw [hB] at hq; omega
      refine ⟨?_, by simp, bounded_cons.2 ⟨hmod, bounded_nil⟩, fun h => by simp at h⟩
      rw [mag_cons, mag_nil, hB]
      push_cast
      omega

/-- For every `long long` other than the minimum, the constructor yields the canonical
representation of `x`. -/
theorem ofLongLong_spec (x : Int) (h1 : -2 ^ 63 < x) (h2 : x < 2 ^ 63) :
    canonical (ofLongLong x) ∧ value (ofLongLong x) = x := by
  unfold ofLongLong
  by_cases h0 : x = 0
  · subst h0
    decide
  · rw [if_neg h0]
    by_cases hneg : x < 0
    · have hw : wrap64 (-x) = -x := by
        unfold wrap64
        omega
      simp only [hneg, decide_True, if_true, hw]
      obtain ⟨m1, m2⟩ := limbsOf_spec (-x).toNat (-x) (by omega) (le_refl _)
      refine ⟨⟨m2, ?_⟩, ?_⟩
      · intro hz
        simp only at hz
        rw [hz] at m1
        simp at m1
        omega
      · unfold value
        simp only [if_true]
        rw [m1]
        omega
    · simp only [hneg, decide_False, Bool.false_eq_true, if_false]
      obtain ⟨m1, m2⟩ := limbsOf_spec x.toNat x (by omega) (le_refl _)
      refine ⟨⟨m2, fun _ => rfl⟩, ?_⟩
      unfold value
      simp only [Bool.false_eq_true, if_false]
      exact m1

/-! ### Reading back what was written -/

theorem digitChar_toNat {d : Nat} (h : d < 10) : (digitChar d).toNat = 48 + d := by
  interval_cases d <;> rfl

theorem digitChar_isDecimalDigit {d : Nat} (h : d < 10) : isDecimalDigit (digitChar d) := by
  unfold isDecimalDigit
  rw [digitChar_toNat h]
  omega

theorem digitChar_ne_plus {d : Nat} (h : d < 10) : digitChar d ≠ '+' := by
  interval_cases d <;> decide

theorem decimalValue_digits (L : List Nat) (h : ∀ d ∈ L, d < 10) :
    decimalValue (L.reverse.map digitChar) = Nat.ofDigits 10 L := by
  induction L with
  | nil => rfl
  | cons d L ih =>
    have hd := h d (by simp)
    rw [List.reverse_cons, List.map_append, decimalValue_append,
      ih (fun e he => h e (List.mem_cons_of_mem _ he)), Nat.ofDigits_cons]
    have e : decimalValue (List.map digitChar [d]) = d := by
      simp only [List.map_cons, List.map_nil, decimalValue, List.foldl_cons, List.foldl_nil]
      rw [digitChar_toNat hd]
      omega
    rw [e]
    simp only [List.length_map, List.length_singleton, pow_one, Nat.cast_id]
    ring

theorem digits_chars_valid (n : Nat) :
    ∀ c ∈ ((Nat.digits 10 n).reverse).map digitChar, isDecimalDigit c := by
  intro c hc
  obtain ⟨d, hd, rfl⟩ := List.mem_map.1 hc
  exact digitChar_isDecimalDigit (Nat.digits_lt_base (by decide) (List.mem_reverse.1 hd))

theorem digits_chars_value (n : Nat) :
    decimalValue (((Nat.digits 10 n).reverse).map digitChar) = n := by
  rw [decimalValue_digits _ (fun d hd => Nat.digits_lt_base (by decide) hd),
    Nat.ofDigits_digits]

theorem digits_chars_head (n : Nat) (hn : n ≠ 0) :
    ∃ d t, d < 10 ∧ ((Nat.digits 10 n).reverse).map digitChar = digitChar d :: t := by
  have hne : (Nat.digits 10 n).reverse ≠ [] := by
    simpa using Nat.digits_ne_nil_iff_ne_zero.2 hn
  rcases hl : (Nat.digits 10 n).reverse with _ | ⟨d, t⟩
  · exact absurd hl hne
  · refine ⟨d, t.map digitChar, ?_, rfl⟩
    apply Nat.digits_lt_base (b := 10) (m := n) (by decide)
    apply List.mem_reverse.1
    rw [hl]
    simp

/-- The canonical numeral of an integer is a valid decimal string that denotes it. -/
theorem numeral_valid (z : Int) : validDecimal (numeral z) ∧ denote (numeral z) = z := by
  by_cases h0 : z = 0
  · subst h0
    decide
  · have hn : z.natAbs ≠ 0 := Int.natAbs_ne_zero.2 h0
    have hv := digits_chars_valid z.natAbs
    have hval := digits_chars_value z.natAbs
    obtain ⟨d, t, hd, hdt⟩ := digits_chars_head z.natAbs hn
    unfold numeral
    rw [if_neg h0]
    by_cases hz : z < 0
    · rw [if_pos hz]
      have hb : body (['-'] ++ ((Nat.digits 10 z.natAbs).reverse).map digitChar)
          = ((Nat.digits 10 z.natAbs).reverse).map digitChar := by
        simp [body]
      refine ⟨⟨?_, ?_⟩, ?_⟩
      · rw [hb, hdt]
        simp
      · rw [hb]
        exact hv
      · unfold denote
        rw [hb, hval]
        simp only [List.singleton_append, List.head?_cons, if_true]
        omega
    · rw [if_neg hz]
      have hb : body ([] ++ ((Nat.digits 10 z.natAbs).reverse).map digitChar)
          = ((Nat.digits 10 z.natAbs).reverse).map digitChar := by
        rw [List.nil_append, hdt]
        have hc : ¬ (digitChar d = '-' ∨ digitChar d = '+') := by
          intro h
          rcases h with h | h
          · exact digitChar_ne_minus hd h
          · exact digitChar_ne_plus hd h
        show (if digitChar d = '-' ∨ digitChar d = '+' then t else digitChar d :: t) = _
        rw [if_neg hc]
      refine ⟨⟨?_, ?_⟩, ?_⟩
      · rw [hb, hdt]
        simp
      · rw [hb]
        exact hv
      · unfold denote
        rw [hb, hval]
        have hh : ¬ (([] ++ ((Nat.digits 10 z.natAbs).reverse).map digitChar).head?
            = some '-') := by
          rw [List.nil_append, hdt]
          simp only [List.head?_cons, Option.some.injEq]
          exact digitChar_ne_minus hd
        rw [if_neg hh]
        omega

/-- Reading the string written for a canonical value gives the value back. -/
theorem read_operator_out {x : int2048} (hx : canonical x) : read (operator_out x) = x := by
  rw [operator_out_spec hx]
  obtain ⟨h1, h2⟩ := numeral_valid (value x)
  apply canonical_inj (read_canonical _ h1) hx
  rw [read_value _ (fun c hc => (h1.2 c hc).1), h2]

/-! ### The iterations of the long division -/

/-- One iteration of the long-division loop, entered with `current < |b|`: the limb
found by the binary search is below `BASE`, it is the largest multiplier that fits, and
the subtraction leaves `current < |b|` again. -/
theorem divStep_spec (b current : int2048) (ai : Nat) (hai : ai < BASE)
    (hcur : bounded current.digits) (hlt : mag current.digits < mag b.digits) :
    mag (normalize { current with digits := ai :: current.digits }).digits
        = ai + BASE * mag current.digits ∧
      searchLimb b (normalize { current with digits := ai :: current.digits })
        (BASE - 1) 0 (BASE - 1) < BASE ∧
      mag b.digits * searchLimb b (normalize { current with digits := ai :: current.digits })
          (BASE - 1) 0 (BASE - 1)
        ≤ mag (normalize { current with digits := ai :: current.digits }).digits ∧
      mag (normalize { current with digits := ai :: current.digits }).digits
        < mag b.digits * (searchLimb b
            (normalize { current with digits := ai :: current.digits })
            (BASE - 1) 0 (BASE - 1) + 1) ∧
      mag (subAbs (normalize { current with digits := ai :: current.digits })
            (mulLimb b (searchLimb b (normalize { current with digits := ai :: current.digits })
              (BASE - 1) 0 (BASE - 1)))).digits
          + mag b.digits * searchLimb b
              (normalize { current with digits := ai :: current.digits }) (BASE - 1) 0 (BASE - 1)
        = mag (normalize { current with digits := ai :: current.digits }).digits ∧
      mag (subAbs (normalize { current with digits := ai :: current.digits })
            (mulLimb b (searchLimb b (normalize { current with digits := ai :: current.digits })
              (BASE - 1) 0 (BASE - 1)))).digits < mag b.digits ∧
      bounded (subAbs (normalize { current with digits := ai :: current.digits })
            (mulLimb b (searchLimb b (normalize { current with digits := ai :: current.digits })
              (BASE - 1) 0 (BASE - 1)))).digits := by
  have hn := normalize_digits_spec { current with digits := ai :: current.digits }
  have hnorm : normal (normalize { current with digits := ai :: current.digits }).digits :=
    hn.2.1 (bounded_cons.2 ⟨hai, hcur⟩)
  have hmag : mag (normalize { current with digits := ai :: current.digits }).digits
      = ai + BASE * mag current.digits := by
    rw [hn.1]; rfl
  have hhi : mag (normalize { current with digits := ai :: current.digits }).digits
      < mag b.digits * (BASE - 1 + 1) := by
    rw [hmag]
    have e : BASE - 1 + 1 = BASE := by rw [BASE_eq]
    rw [e]
    have h1 : BASE * (mag current.digits + 1) ≤ BASE * mag b.digits :=
      Nat.mul_le_mul_left _ hlt
    nlinarith
  obtain ⟨s1, s2⟩ := searchLimb_spec b _ hnorm (BASE - 1) 0 (BASE - 1) (Nat.zero_le _)
    (by omega) (by simp) hhi
  have s3 := (searchLimb_bounds b (normalize { current with digits := ai :: current.digits })
    (BASE - 1) 0 (BASE - 1) (Nat.zero_le _)).2
  generalize searchLimb b (normalize { current with digits := ai :: current.digits })
    (BASE - 1) 0 (BASE - 1) = left at s1 s2 s3 ⊢
  obtain ⟨m1, m2⟩ := mulLimb_spec b left
  obtain ⟨d1, d2, _⟩ := subAbs_normal_spec hnorm m2 (by rw [m1]; exact s1)
  rw [m1] at d1
  have hB := BASE_pos
  refine ⟨hmag, by omega, s1, s2, d1, ?_, d2.2.1⟩
  nlinarith

/-- Every iteration of the long-division loop that starts with `current < |b|` records
the largest limb `d` with `d * |b| <= current` and leaves `current < |b|`. -/
theorem divTrace_spec (b : int2048) (rest : List Nat) (current : int2048)
    (hrest : bounded rest) (hcur : bounded current.digits)
    (hlt : mag current.digits < mag b.digits) :
    ∀ e ∈ divTrace b rest current,
      e.limb < BASE ∧ mag b.digits * e.limb ≤ mag e.before.digits ∧
        (∀ d, mag b.digits * d ≤ mag e.before.digits → d ≤ e.limb) ∧
        mag e.after.digits + mag b.digits * e.limb = mag e.before.digits ∧
        mag e.after.digits < mag b.digits := by
  induction rest generalizing current with
  | nil =>
    intro e he
    rw [divTrace] at he
    cases he
  | cons ai rest ih =>
    have hr := bounded_cons.1 hrest
    obtain ⟨_, t2, t3, t4, t5, t6, t7⟩ := divStep_spec b current ai hr.1 hcur hlt
    intro e he
    rw [divTrace] at he
    generalize searchLimb b (normalize { current with digits := ai :: current.digits })
      (BASE - 1) 0 (BASE - 1) = left at t2 t3 t4 t5 t6 t7 he
    rcases List.mem_cons.1 he with h | h
    · subst h
      refine ⟨t2, t3, ?_, t5, t6⟩
      intro d hd
      have hd' : mag b.digits * d
          ≤ mag (normalize { current with digits := ai :: current.digits }).digits := hd
      show d ≤ left
      by_contra hc
      have h1 : mag b.digits * (left + 1) ≤ mag b.digits * d :=
        Nat.mul_le_mul_left _ (by omega)
      omega
    · exact ih _ hr.2 t7 t6 e h

/-- The quotient limbs and the final remainder of `divLoop` are those of its iterations:
the limbs recorded, the last one first, and `current` after the last iteration. -/
theorem divLoop_eq_trace (b : int2048) (rest : List Nat) (current : int2048) (res : List Nat) :
    (divLoop b rest current res).1
        = ((divTrace b rest current).map DivStep.limb).reverse ++ res ∧
      (divLoop b rest current res).2
        = ((divTrace b rest current).map DivStep.after).getLastD current := by
  induction rest generalizing current res with
  | nil =>
    rw [divLoop, divTrace]
    exact ⟨rfl, rfl⟩
  | cons ai rest ih =>
    rw [divLoop, divTrace]
    generalize searchLimb b (normalize { current with digits := ai :: current.digits })
      (BASE - 1) 0 (BASE - 1) = left
    obtain ⟨h1, h2⟩ := ih (subAbs (normalize { current with digits := ai :: current.digits })
      (mulLimb b left)) (left :: res)
    refine ⟨?_, ?_⟩
    · rw [h1]
      simp
    · rw [h2]
      simp only [List.map_cons, List.getLastD_cons]

/-- After the loop the normalized quotient is the truncated quotient of the magnitudes
and `current` is their remainder. -/
theorem longDivision_div_mod (a b : int2048) (ha : bounded a.digits)
    (hB : 0 < mag b.digits) :
    mag (longDivision a b).digits = mag a.digits / mag b.digits ∧
      mag (divLoop b a.digits.reverse ⟨[], false⟩ []).2.digits
        = mag a.digits % mag b.digits := by
  obtain ⟨d1, d2⟩ := divLoop_spec b a.digits.reverse ⟨[], false⟩ []
    (bounded_reverse ha) bounded_nil hB
  simp only [List.reverse_reverse, mag_nil, Nat.mul_zero, Nat.add_zero] at d1
  have hn := normalize_digits_spec ⟨(divLoop b a.digits.reverse ⟨[], false⟩ []).1, false⟩
  have hq : mag (longDivision a b).digits
      = mag (divLoop b a.digits.reverse ⟨[], false⟩ []).1 := hn.1
  rw [hq]
  generalize mag (divLoop b a.digits.reverse ⟨[], false⟩ []).1 = Q at d1 ⊢
  generalize mag (divLoop b a.digits.reverse ⟨[], false⟩ []).2.digits = R at d1 d2 ⊢
  obtain ⟨e1, e2⟩ := (Nat.div_mod_unique (a := mag a.digits) (c := R) (d := Q) hB).2
    ⟨by omega, d2⟩
  exact ⟨e1.symm, e2.symm⟩

/-! ### The accesses of the schoolbook multiplication -/

theorem mulInnerTraced_snd (ai : Nat) (b : List Nat) (i fuel j carry : Nat) (res : List Nat) :
    (mulInnerTraced ai b i fuel j carry res).2 = mulInner ai b i fuel j carry res := by
  induction fuel generalizing j carry res with
  | zero =>
    unfold mulInnerTraced mulInner
    split <;> rfl
  | succ fuel ih =>
    unfold mulInnerTraced mulInner
    split
    · exact ih _ _ _
    · rfl

theorem mulOuterTraced_snd (b rest : List Nat) (i : Nat) (res : List Nat) :
    (mulOuterTraced b rest i res).2 = mulOuter b rest i res := by
  induction rest generalizing i res with
  | nil => rfl
  | cons ai rest ih =>
    unfold mulOuterTraced mulOuter
    simp only
    rw [ih, mulInnerTraced_snd]

theorem mulInnerTraced_done (ai : Nat) (b : List Nat) (i fuel j carry : Nat) (res : List Nat)
    (h : ¬ (j < b.length ∨ carry ≠ 0)) : (mulInnerTraced ai b i fuel j carry res).1 = [] := by
  cases fuel with
  | zero =>
    unfold mulInnerTraced
    rw [if_neg h]
  | succ fuel =>
    unfold mulInnerTraced
    rw [if_neg h]

theorem limb_cur_lt {x y r c : Nat} (hx : x < BASE) (hy : y < BASE) (hr : r < BASE)
    (hc : c < BASE) : r + c + x * y < BASE * BASE := by
  have h1 : x * y ≤ (BASE - 1) * (BASE - 1) :=
    Nat.mul_le_mul (Nat.le_sub_one_of_lt hx) (Nat.le_sub_one_of_lt hy)
  rw [BASE_eq] at *
  norm_num at h1 ⊢
  omega

/-- One row of the schoolbook multiplication, under the conditions of `mulInner_spec`:
every access is inside the buffer and every `cur` is below `BASE * BASE`; in particular
the loop ends before the fuel does. -/
theorem mulInnerTraced_spec (ai : Nat) (b : List Nat) (i n : Nat) (hai : ai < BASE)
    (hb : bounded b) (hin : i + b.length < n) (fuel j carry : Nat) (res : List Nat)
    (hj : j ≤ b.length) (hc : carry < BASE) (hlen : res.length = n) (hres : bounded res)
    (hz : ∀ k, i + b.length ≤ k → res.getD k 0 = 0) (hf : b.length + 1 - j ≤ fuel) :
    ∀ e ∈ (mulInnerTraced ai b i fuel j carry res).1, e.1 < n ∧ e.2 < BASE * BASE := by
  induction fuel generalizing j carry res with
  | zero => omega
  | succ fuel ih =>
    by_cases hjb : j < b.length
    · unfold mulInnerTraced
      simp only [hjb, true_or, if_true]
      have hbj : b.getD j 0 < BASE := getD_lt_of_bounded hb j
      have hro : res.getD (i + j) 0 < BASE := getD_lt_of_bounded hres _
      have hc2 := limb_product_lt hai hbj hro hc
      have hcur := limb_cur_lt hai hbj hro hc
      have hm : (res.getD (i + j) 0 + carry + ai * b.getD j 0) % BASE < BASE :=
        Nat.mod_lt _ BASE_pos
      intro e he
      rcases List.mem_cons.1 he with h | h
      · subst h
        exact ⟨by show i + j < n; omega, hcur⟩
      · exact ih (j + 1) _ _ (by omega) hc2 (by simpa using hlen) (bounded_set _ hres hm)
          (fun k hk => by rw [getD_set_ne _ _ _ _ (by omega)]; exact hz k hk) (by omega) e h
    · have hjeq : j = b.length := by omega
      subst hjeq
      by_cases hc0 : carry = 0
      · subst hc0
        rw [mulInnerTraced_done _ _ _ _ _ _ _ (by simp)]
        intro e he
        cases he
      · unfold mulInnerTraced
        simp only [hjb, hc0, ne_eq, not_false_eq_true, or_true, if_true, if_false, Nat.add_zero]
        rw [hz (i + b.length) (le_refl _)]
        simp only [Nat.zero_add]
        rw [Nat.div_eq_of_lt hc]
        rw [mulInnerTraced_done _ _ _ _ _ _ _ (by simp)]
        intro e he
        rcases List.mem_cons.1 he with h | h
        · subst h
          refine ⟨hin, ?_⟩
          show carry < BASE * BASE
          have hB := BASE_pos
          nlinarith
        · cases h

/-- The schoolbook multiplication, under the conditions of `mulOuter_spec`: every access
of every row is inside the buffer and every `cur` is below `BASE * BASE`. -/
theorem mulOuterTraced_spec (b : List Nat) (n : Nat) (hb : bounded b) (rest : List Nat)
    (i : Nat) (res : List Nat) (hrest : bounded rest) (hn : i + rest.length + b.length = n)
    (hlen : res.length = n) (hres : bounded res)
    (hz : ∀ k, i + b.length ≤ k → res.getD k 0 = 0) :
    ∀ e ∈ (mulOuterTraced b rest i res).1, e.1 < n ∧ e.2 < BASE * BASE := by
  induction rest generalizing i res with
  | nil =>
    intro e he
    cases he
  | cons ai rest ih =>
    have ha := bounded_cons.1 hrest
    simp only [List.length_cons] at hn
    have ht := mulInnerTraced_spec ai b i n ha.1 hb (by omega) res.length 0 0 res
      (Nat.zero_le _) BASE_pos hlen hres hz (by omega)
    obtain ⟨h1, h2, h3, _⟩ := mulInner_spec ai b i n ha.1 hb (by omega) res.length 0 0 res
      (Nat.zero_le _) BASE_pos hlen hres hz (by omega)
    unfold mulOuterTraced
    simp only
    rw [mulInnerTraced_snd]
    intro e he
    rcases List.mem_append.1 he with h | h
    · exact ht e h
    · exact ih (i + 1) _ ha.2 (by omega) h1 h2 (fun k hk => h3 k (by omega)) e h

theorem base_square_lt : BASE * BASE < 2 ^ 63 := by decide

/-! ### Other thresholds -/

theorem lowPart_mag {a : int2048} (ha : bounded a.digits) (mid : Nat) :
    normal (lowPart a mid).digits ∧ mag (lowPart a mid).digits = mag (a.digits.take mid) := by
  have hn := normalize_digits_spec ⟨a.digits.take (min mid a.digits.length), false⟩
  have e : a.digits.take (min mid a.digits.length) = a.digits.take mid := by
    rw [List.take_eq_take]
    simp
  refine ⟨hn.2.1 (bounded_take ha _), ?_⟩
  show mag (normalize _).digits = _
  rw [hn.1]
  simp only
  rw [e]

/-- Whatever the threshold and the depth allowed, a result that the recursion returns is
the canonical limb sequence of the product. -/
theorem multiplyAbsAt_sound (t fuel : Nat) (a b r : int2048) (ha : bounded a.digits)
    (hb : bounded b.digits) (h : multiplyAbsAt t fuel a b = some r) :
    mag r.digits = mag a.digits * mag b.digits ∧ normal r.digits ∧ r.sign = false := by
  induction fuel generalizing a b r with
  | zero =>
    unfold multiplyAbsAt at h
    split at h
    · injection h with h
      rw [← h]
      exact schoolbook_spec ha hb
    · cases h
  | succ fuel ih =>
    unfold multiplyAbsAt at h
    split at h
    · injection h with h
      rw [← h]
      exact schoolbook_spec ha hb
    · obtain ⟨la1, la3⟩ := lowPart_mag ha (max a.digits.length b.digits.length / 2)
      obtain ⟨lb1, lb3⟩ := lowPart_mag hb (max a.digits.length b.digits.length / 2)
      obtain ⟨ha1, _, ha3⟩ := highPart_spec ha (max a.digits.length b.digits.length / 2)
      obtain ⟨hb1, _, hb3⟩ := highPart_spec hb (max a.digits.length b.digits.length / 2)
      simp only at h
      split at h
      · rename_i z0 z2 z1 e0 e2 e1
        injection h with h
        obtain ⟨m0, n0, _⟩ := ih _ _ _ la1.2.1 lb1.2.1 e0
        obtain ⟨m2, n2, _⟩ := ih _ _ _ ha1.2.1 hb1.2.1 e2
        obtain ⟨m1, n1, _⟩ := ih _ _ _ (addAbs_spec _ _).2.1 (addAbs_spec _ _).2.1 e1
        rw [(addAbs_spec _ _).1, (addAbs_spec _ _).1] at m1
        have hc := combine_spec (max a.digits.length b.digits.length / 2) _ _ _ _ n0 n2 n1
          m0 m2 m1
        rw [la3, ha3, lb3, hb3, mag_split, mag_split] at hc
        rw [← h]
        exact hc
      · cases h

theorem multiplyAbsAt_sound_schoolbook (t fuel : Nat) {a b r : int2048}
    (ha : bounded a.digits) (hb : bounded b.digits) (h : multiplyAbsAt t fuel a b = some r) :
    r = schoolbook a b := by
  obtain ⟨h2, h3, h4⟩ := multiplyAbsAt_sound t fuel a b r ha hb h
  exact eq_schoolbook ha hb h2 h3 h4

/-- With the threshold `0` the recursion never reaches the base case on nonempty
operands: no depth is enough for a result. -/
theorem multiplyAbsAt_zero_none (fuel : Nat) (a b : int2048) (ha : bounded a.digits)
    (hb : bounded b.digits) (hane : a.digits ≠ []) (hbne : b.digits ≠ []) :
    multiplyAbsAt 0 fuel a b = none := by
  have hla : 0 < a.digits.length := List.length_pos.2 hane
  have hlb : 0 < b.digits.length := List.length_pos.2 hbne
  have hc : ¬ (a.digits.length ≤ 0 ∨ b.digits.length ≤ 0) := by omega
  induction fuel generalizing a b with
  | zero =>
    unfold multiplyAbsAt
    rw [if_neg hc]
  | succ fuel ih =>
    obtain ⟨la1, _⟩ := lowPart_mag ha (max a.digits.length b.digits.length / 2)
    obtain ⟨lb1, _⟩ := lowPart_mag hb (max a.digits.length b.digits.length / 2)
    have h0 := ih (lowPart a (max a.digits.length b.digits.length / 2))
      (lowPart b (max a.digits.length b.digits.length / 2)) la1.2.1 lb1.2.1 la1.1 lb1.1
      (List.length_pos.2 la1.1) (List.length_pos.2 lb1.1)
      (by
        have := List.length_pos.2 la1.1
        have := List.length_pos.2 lb1.1
        omega)
    unfold multiplyAbsAt
    rw [if_neg hc]
    simp only [h0]

/-! ### The claims -/

/-- C1 (defect in the early return of `operator/`): the dividend `0` and the divisor `-3`
are canonical and the divisor is not zero, the floor of `0 / -3` is `0`, but `operator/`
returns `-1`. -/
theorem operator_div_zero_by_negative :
    canonical ⟨[0], false⟩ ∧ canonical ⟨[3], true⟩ ∧ value ⟨[3], true⟩ ≠ 0 ∧
      operator_div ⟨[0], false⟩ ⟨[3], true⟩ = ⟨[1], true⟩ ∧
      value (operator_div ⟨[0], false⟩ ⟨[3], true⟩) = -1 ∧
      Int.fdiv (value ⟨[0], false⟩) (value ⟨[3], true⟩) = 0 := by
  decide

/-- The examples of C1 and C2 hold: `10 / -3 = -4`, `-10 / 3 = -4`, `10 % -3 = -2` and
`-10 % 3 = 2`; so do `456 / 123 = 3` and `456 % 123 = 87`. -/
theorem operator_div_mod_examples :
    operator_div ⟨[10], false⟩ ⟨[3], true⟩ = ⟨[4], true⟩ ∧
      operator_div ⟨[10], true⟩ ⟨[3], false⟩ = ⟨[4], true⟩ ∧
      operator_mod ⟨[10], false⟩ ⟨[3], true⟩ = ⟨[2], true⟩ ∧
      operator_mod ⟨[10], true⟩ ⟨[3], false⟩ = ⟨[2], false⟩ ∧
      operator_div ⟨[456], false⟩ ⟨[123], false⟩ = ⟨[3], false⟩ ∧
      operator_mod ⟨[456], false⟩ ⟨[123], false⟩ = ⟨[87], false⟩ := by
  refine ⟨?_, ?_, ?_, ?_, ?_, ?_⟩ <;> decide

/-- C2 (same defect, seen through `operator%`): for the dividend `0` and the divisor `-3`
`operator%` returns `-3`, whose absolute value is not below that of the divisor. -/
theorem operator_mod_zero_by_negative :
    operator_mod ⟨[0], false⟩ ⟨[3], true⟩ = ⟨[3], true⟩ ∧
      value (operator_mod ⟨[0], false⟩ ⟨[3], true⟩) = -3 ∧
      ¬ ((value (operator_mod ⟨[0], false⟩ ⟨[3], true⟩)).natAbs
          < (value ⟨[3], true⟩).natAbs) := by
  decide

/-- C3: for canonical `a` and canonical nonzero `b`, `a == b * (a / b) + (a % b)` holds
as an equality of representations. -/
theorem floor_division_identity (a b : int2048) (ha : canonical a) (hb : canonical b)
    (_hb0 : value b ≠ 0) :
    operator_eq a (operator_add (operator_mul b (operator_div a b)) (operator_mod a b))
      = true := by
  rw [operator_eq_iff]
  exact (division_identity ha hb).symm

theorem floor_division_identity_witness :
    canonical ⟨[10], false⟩ ∧ canonical ⟨[3], true⟩ ∧ value ⟨[3], true⟩ ≠ 0 ∧
      operator_eq ⟨[10], false⟩
        (operator_add (operator_mul ⟨[3], true⟩ (operator_div ⟨[10], false⟩ ⟨[3], true⟩))
          (operator_mod ⟨[10], false⟩ ⟨[3], true⟩)) = true :=
  ⟨by decide, by decide, by decide,
    floor_division_identity ⟨[10], false⟩ ⟨[3], true⟩ (by decide) (by decide) (by decide)⟩

/-- C4, as stated, fails: `7 / 0` returns the limb `999999999` and `7 % 0` returns `7`;
neither ends in `DivisionByZeroError`. -/
theorem division_by_zero_returns_a_value :
    canonical ⟨[7], false⟩ ∧ mag zero.digits = 0 ∧
      div_outcome ⟨[7], false⟩ zero = Except.ok ⟨[999999999], false⟩ ∧
      div_outcome ⟨[7], false⟩ zero ≠ Except.error Error.DivisionByZeroError ∧
      mod_outcome ⟨[7], false⟩ zero = Except.ok ⟨[7], false⟩ ∧
      mod_outcome ⟨[7], false⟩ zero ≠ Except.error Error.DivisionByZeroError := by
  have hq : operator_div ⟨[7], false⟩ zero = ⟨[999999999], false⟩ := by decide
  refine ⟨by decide, by decide, ?_, ?_, ?_, ?_⟩
  · exact congrArg Except.ok hq
  · intro h; cases h
  · refine congrArg Except.ok ?_
    unfold operator_mod
    rw [hq]
    decide
  · intro h; cases h

/-- C4, amended: for canonical `a` and a canonical divisor `b` of magnitude zero, neither
`a / b` nor `a % b` fails: `a / b` returns a canonical value and `a % b` returns `a`. -/
theorem division_by_zero_unchecked (a b : int2048) (ha : canonical a) (hb : canonical b)
    (h0 : mag b.digits = 0) :
    (∃ q, div_outcome a b = Except.ok q ∧ canonical q) ∧ mod_outcome a b = Except.ok a :=
  ⟨⟨operator_div a b, rfl, operator_div_canonical a b⟩,
    congrArg Except.ok (mod_by_zero ha hb h0)⟩

theorem division_by_zero_unchecked_witness :
    canonical ⟨[7], true⟩ ∧ canonical zero ∧ mag zero.digits = 0 ∧
      (∃ q, div_outcome ⟨[7], true⟩ zero = Except.ok q ∧ canonical q) ∧
      mod_outcome ⟨[7], true⟩ zero = Except.ok ⟨[7], true⟩ :=
  ⟨by decide, by decide, by decide,
    division_by_zero_unchecked ⟨[7], true⟩ zero (by decide) (by decide) (by decide)⟩

/-- C6: for every valid decimal string `s`, formatting the result of parsing `s` yields
the canonical decimal numeral of the integer that `s` denotes: `"0"` for every spelling
of zero, a leading `'-'` exactly when the integer is negative, and no leading zero
digit otherwise. -/
theorem format_read (s : List Char) (hs : validDecimal s) :
    operator_out (read s) = numeral (denote s) ∧
      (denote s = 0 → operator_out (read s) = ['0']) ∧
      ((operator_out (read s)).head? = some '-' ↔ denote s < 0) ∧
      (denote s ≠ 0 →
        ((operator_out (read s)).drop (if denote s < 0 then 1 else 0)).head? ≠ some '0') := by
  have h1 : operator_out (read s) = numeral (denote s) := by
    rw [operator_out_spec (read_canonical s hs), read_value s (fun c hc => (hs.2 c hc).1)]
  rw [h1]
  obtain ⟨n1, _, n3, n4⟩ := numeral_shape (denote s)
  exact ⟨rfl, n1, n3, n4⟩

theorem format_read_witness :
    validDecimal ['-', '0', '0', '1', '2'] ∧
      operator_out (read ['-', '0', '0', '1', '2']) = numeral (denote ['-', '0', '0', '1', '2']) :=
  ⟨by decide, (format_read ['-', '0', '0', '1', '2'] (by decide)).1⟩

/-- Every spelling of zero named in C6 is written as `"0"`, and the digits of a longer
number come out limb by limb. -/
theorem format_read_examples :
    operator_out (read ['-', '0']) = ['0'] ∧ operator_out (read ['+', '0', '0', '0']) = ['0'] ∧
      operator_out (read ['-', '0', '0', '1', '2']) = ['-', '1', '2'] ∧
      operator_out (read ['1', '0', '0', '0', '0', '0', '0', '0', '0', '7'])
        = ['1', '0', '0', '0', '0', '0', '0', '0', '0', '7'] := by
  decide

/-- C8: for canonical `a` and `b`, `a + b` denotes `value a + value b`.  With equal signs
the magnitudes are added and the shared sign is kept; with different signs the smaller
magnitude is subtracted from the larger and the sign of the operand with the larger
magnitude is taken; equal magnitudes of different signs give zero. -/
theorem operator_add_denotes (a b : int2048) (ha : canonical a) (hb : canonical b) :
    value (operator_add a b) = value a + value b ∧
    (a.sign = b.sign →
      (operator_add a b).sign = a.sign ∧
        mag (operator_add a b).digits = mag a.digits + mag b.digits) ∧
    (a.sign ≠ b.sign → mag b.digits < mag a.digits →
      (operator_add a b).sign = a.sign ∧
        mag (operator_add a b).digits + mag b.digits = mag a.digits) ∧
    (a.sign ≠ b.sign → mag a.digits < mag b.digits →
      (operator_add a b).sign = b.sign ∧
        mag (operator_add a b).digits + mag a.digits = mag b.digits) ∧
    (a.sign ≠ b.sign → mag a.digits = mag b.digits → operator_add a b = zero) :=
  ⟨(add_spec ha hb).1, add_same_sign, fun h => (add_diff_sign ha hb h).1,
    fun h => (add_diff_sign ha hb h).2.1, fun h => (add_diff_sign ha hb h).2.2⟩

theorem operator_add_denotes_witness :
    canonical ⟨[123], false⟩ ∧ canonical ⟨[456], false⟩ ∧
      value (operator_add ⟨[123], false⟩ ⟨[456], false⟩)
        = value ⟨[123], false⟩ + value ⟨[456], false⟩ :=
  ⟨by decide, by decide,
    (operator_add_denotes ⟨[123], false⟩ ⟨[456], false⟩ (by decide) (by decide)).1⟩

/-- The example of C8: `123 + 456 = 579`. -/
theorem operator_add_example : operator_add ⟨[123], false⟩ ⟨[456], false⟩ = ⟨[579], false⟩ := by
  decide

/-- C9: for canonical `a` and `b`, `a - b` is `add(a, negate(b))`, where `negate` flips
the sign unless the value is zero, and it denotes `value a - value b`. -/
theorem operator_sub_denotes (a b : int2048) (ha : canonical a) (hb : canonical b) :
    operator_sub a b = add a (negate b) ∧ value (operator_sub a b) = value a - value b := by
  refine ⟨?_, (minus_spec ha hb).1⟩
  show minus a b = _
  rw [minus_eq_add_neg hb, operator_neg_eq_negate hb]

theorem operator_sub_denotes_witness :
    canonical ⟨[123], false⟩ ∧ canonical ⟨[456], false⟩ ∧
      operator_sub ⟨[123], false⟩ ⟨[456], false⟩ = add ⟨[123], false⟩ (negate ⟨[456], false⟩) ∧
      value (operator_sub ⟨[123], false⟩ ⟨[456], false⟩)
        = value ⟨[123], false⟩ - value ⟨[456], false⟩ :=
  ⟨by decide, by decide,
    operator_sub_denotes ⟨[123], false⟩ ⟨[456], false⟩ (by decide) (by decide)⟩

/-- The example of C9: `123 - 456 = -333`. -/
theorem operator_sub_example : operator_sub ⟨[123], false⟩ ⟨[456], false⟩ = ⟨[333], true⟩ := by
  decide

/-- C10: for canonical `a` and `b` of any limb count, `a * b` denotes
`value a * value b`: its magnitude is the product of the magnitudes, its sign is the
exclusive or of the operand signs when the product is not zero, and a zero product is
not negative. -/
theorem operator_mul_denotes (a b : int2048) (ha : canonical a) (hb : canonical b) :
    value (operator_mul a b) = value a * value b ∧
      mag (operator_mul a b).digits = mag a.digits * mag b.digits ∧
      (mag a.digits * mag b.digits ≠ 0 → (operator_mul a b).sign = (a.sign != b.sign)) ∧
      (mag a.digits * mag b.digits = 0 → (operator_mul a b).sign = false) :=
  ⟨(operator_mul_spec ha hb).1, operator_mul_mag_sign ha hb⟩

theorem operator_mul_denotes_witness :
    canonical ⟨[123], false⟩ ∧ canonical ⟨[456], true⟩ ∧
      value (operator_mul ⟨[123], false⟩ ⟨[456], true⟩)
        = value ⟨[123], false⟩ * value ⟨[456], true⟩ :=
  ⟨by decide, by decide,
    (operator_mul_denotes ⟨[123], false⟩ ⟨[456], true⟩ (by decide) (by decide)).1⟩

/-- The example of C10: `123 * 456 = 56088`. -/
theorem operator_mul_example :
    operator_mul ⟨[123], false⟩ ⟨[456], false⟩ = ⟨[56088], false⟩ := by
  decide

/-- C11: for canonical `a` and `b`, `operator<` agrees with the order of the integers
denoted and `operator==` with their equality; a negative value is below a non-negative
one, and of two negative values the one with the larger magnitude is the lesser. -/
theorem order_agrees (a b : int2048) (ha : canonical a) (hb : canonical b) :
    (operator_lt a b = true ↔ value a < value b) ∧
      (operator_eq a b = true ↔ value a = value b) ∧
      (a.sign = true → b.sign = false → operator_lt a b = true ∧ operator_lt b a = false) ∧
      (a.sign = true → b.sign = true →
        (operator_lt a b = true ↔ mag b.digits < mag a.digits)) := by
  refine ⟨operator_lt_spec ha hb, operator_eq_spec ha hb, ?_, ?_⟩
  · intro hsa hsb
    rw [operator_lt_of_sign_ne (by rw [hsa, hsb]; simp),
      operator_lt_of_sign_ne (by rw [hsa, hsb]; simp)]
    exact ⟨hsa, hsb⟩
  · intro hsa hsb
    rw [operator_lt_spec ha hb]
    unfold value
    simp only [hsa, hsb, if_true]
    omega

theorem order_agrees_witness :
    canonical ⟨[5], true⟩ ∧ canonical ⟨[3], false⟩ ∧
      (operator_lt ⟨[5], true⟩ ⟨[3], false⟩ = true
        ↔ value ⟨[5], true⟩ < value ⟨[3], false⟩) :=
  ⟨by decide, by decide, (order_agrees ⟨[5], true⟩ ⟨[3], false⟩ (by decide) (by decide)).1⟩

/-- C12: for any pair of `int2048` values `a` and `b`, exactly one of `a < b`, `a == b`
and `a > b` holds. -/
theorem ordering_trichotomy (a b : int2048) :
    (operator_lt a b = true ∨ operator_eq a b = true ∨ operator_gt a b = true) ∧
      ¬ (operator_lt a b = true ∧ operator_eq a b = true) ∧
      ¬ (operator_lt a b = true ∧ operator_gt a b = true) ∧
      ¬ (operator_eq a b = true ∧ operator_gt a b = true) :=
  trichotomy a b

/-- C13: for all `a` and `b` with limbs below `BASE`, canonical or not, `a + b == b + a`
and `a * b == b * a`, and the two sides are the same representation (sign and limb
sequence). -/
theorem commutativity (a b : int2048) (ha : bounded a.digits) (hb : bounded b.digits) :
    operator_eq (operator_add a b) (operator_add b a) = true ∧
      operator_eq (operator_mul a b) (operator_mul b a) = true ∧
      operator_add a b = operator_add b a ∧ operator_mul a b = operator_mul b a := by
  have h1 : operator_add a b = operator_add b a := add_comm_all a b
  have h2 : operator_mul a b = operator_mul b a := operator_mul_comm ha hb
  exact ⟨(operator_eq_iff _ _).2 h1, (operator_eq_iff _ _).2 h2, h1, h2⟩

theorem commutativity_witness :
    bounded [123, 7] ∧ bounded [456] ∧
      operator_eq (operator_add ⟨[123, 7], true⟩ ⟨[456], false⟩)
        (operator_add ⟨[456], false⟩ ⟨[123, 7], true⟩) = true ∧
      operator_eq (operator_mul ⟨[123, 7], true⟩ ⟨[456], false⟩)
        (operator_mul ⟨[456], false⟩ ⟨[123, 7], true⟩) = true :=
  ⟨by decide, by decide,
    (commutativity ⟨[123, 7], true⟩ ⟨[456], false⟩ (by decide) (by decide)).1,
    (commutativity ⟨[123, 7], true⟩ ⟨[456], false⟩ (by decide) (by decide)).2.1⟩

/-- C14: for every `a` whose zero is not negative, as the data model requires,
`a + (-a) == 0`, where `-a` is the unary minus and `0` the canonical zero. -/
theorem additive_inverse (a : int2048) (h : a.digits = [0] → a.sign = false) :
    operator_eq (operator_add a (operator_neg a)) zero = true ∧
      operator_add a (operator_neg a) = zero :=
  ⟨(operator_eq_iff _ _).2 (add_neg_self h), add_neg_self h⟩

theorem additive_inverse_witness :
    ((⟨[7, 3], true⟩ : int2048).digits = [0] → (⟨[7, 3], true⟩ : int2048).sign = false) ∧
      operator_eq (operator_add ⟨[7, 3], true⟩ (operator_neg ⟨[7, 3], true⟩)) zero = true :=
  ⟨by decide, (additive_inverse ⟨[7, 3], true⟩ (by decide)).1⟩

/-- C15: for canonical magnitudes `a` and `b` of any limb count, `multiplyAbs` returns
exactly what the schoolbook base case returns for them.  The threshold does not matter:
with any threshold in place of `KARATSUBA_THRESHOLD`, a result that the recursion returns
is the schoolbook result, and with a threshold of at least three limbs it returns one. -/
theorem karatsuba_is_schoolbook (a b : int2048) (ha : normal a.digits)
    (hb : normal b.digits) :
    multiplyAbs a b = schoolbook a b ∧
      (∀ t fuel r, multiplyAbsAt t fuel a b = some r → r = schoolbook a b) ∧
      (∀ t, 3 ≤ t →
        multiplyAbsAt t (max a.digits.length b.digits.length) a b = some (schoolbook a b)) ∧
      (∀ fuel, multiplyAbsAux fuel a b = multiplyAbsAt KARATSUBA_THRESHOLD fuel a b) :=
  ⟨multiplyAbs_eq_schoolbook ha.2.1 hb.2.1,
    fun t fuel _ h => multiplyAbsAt_sound_schoolbook t fuel ha.2.1 hb.2.1 h,
    fun t ht => multiplyAbsAt_eq_schoolbook t ht ha.2.1 hb.2.1,
    fun fuel => multiplyAbsAux_eq_at fuel a b⟩

theorem karatsuba_is_schoolbook_witness :
    normal (List.replicate 51 7) ∧ normal (List.replicate 60 9) ∧
      multiplyAbs ⟨List.replicate 51 7, false⟩ ⟨List.replicate 60 9, false⟩
        = schoolbook ⟨List.replicate 51 7, false⟩ ⟨List.replicate 60 9, false⟩ :=
  ⟨by decide, by decide,
    (karatsuba_is_schoolbook ⟨List.replicate 51 7, false⟩ ⟨List.replicate 60 9, false⟩
      (by decide) (by decide)).1⟩

/-- C16 (defect in the constructor from `long long`): for the minimum value `-2^63` the
negation wraps around to `-2^63`, the limb loop does not run, and the constructor yields
an empty limb sequence with a negative sign, which is not canonical and denotes `0`. -/
theorem ofLongLong_minimum :
    ofLongLong (-9223372036854775808) = ⟨[], true⟩ ∧
      ¬ canonical (ofLongLong (-9223372036854775808)) ∧
      value (ofLongLong (-9223372036854775808)) = 0 ∧
      wrap64 (- (-9223372036854775808)) = -9223372036854775808 := by
  decide

/-- C17: for canonical `a` and canonical nonzero `b` with `|a| >= |b|`, every iteration
of the long-division loop of `operator/` records as quotient limb the largest `d`, which
is below `BASE`, with `d * |b| <= current`, and leaves `current < |b|` after the
subtraction; the quotient limbs are the limbs recorded; after the loop the normalized
quotient is the floor of `|a| / |b|` and `current` is `|a| mod |b|`. -/
theorem long_division_loop (a b : int2048) (ha : canonical a) (_hb : canonical b)
    (hb0 : value b ≠ 0) (_hge : mag b.digits ≤ mag a.digits) :
    (∀ e ∈ divTrace { b with sign := false } a.digits.reverse ⟨[], false⟩,
      e.limb < BASE ∧ mag b.digits * e.limb ≤ mag e.before.digits ∧
        (∀ d, mag b.digits * d ≤ mag e.before.digits → d ≤ e.limb) ∧
        mag e.after.digits + mag b.digits * e.limb = mag e.before.digits ∧
        mag e.after.digits < mag b.digits) ∧
      (divLoop { b with sign := false } a.digits.reverse ⟨[], false⟩ []).1
        = ((divTrace { b with sign := false } a.digits.reverse ⟨[], false⟩).map
            DivStep.limb).reverse ∧
      mag (longDivision { a with sign := false } { b with sign := false }).digits
        = mag a.digits / mag b.digits ∧
      mag (divLoop { b with sign := false } a.digits.reverse ⟨[], false⟩ []).2.digits
        = mag a.digits % mag b.digits := by
  have hB : 0 < mag b.digits := by
    apply Nat.pos_of_ne_zero
    intro h
    apply hb0
    unfold value
    rw [h]
    simp
  have ht := divTrace_spec { b with sign := false } a.digits.reverse ⟨[], false⟩
    (bounded_reverse ha.1.2.1) bounded_nil hB
  have hl := (divLoop_eq_trace { b with sign := false } a.digits.reverse ⟨[], false⟩ []).1
  rw [List.append_nil] at hl
  have hd := longDivision_div_mod { a with sign := false } { b with sign := false }
    ha.1.2.1 hB
  exact ⟨ht, hl, hd.1, hd.2⟩

theorem long_division_loop_witness :
    canonical ⟨[10, 4], false⟩ ∧ canonical ⟨[3], true⟩ ∧ value ⟨[3], true⟩ ≠ 0 ∧
      mag [3] ≤ mag [10, 4] ∧
      mag (longDivision { (⟨[10, 4], false⟩ : int2048) with sign := false }
          { (⟨[3], true⟩ : int2048) with sign := false }).digits
        = mag [10, 4] / mag [3] :=
  ⟨by decide, by decide, by decide, by decide,
    (long_division_loop ⟨[10, 4], false⟩ ⟨[3], true⟩ (by decide) (by decide) (by decide)
      (by decide)).2.2.1⟩

/-- C18: for every canonical `x`, reading the string that `operator<<` writes for `x`
gives back `x`, with the same sign and the same limb sequence. -/
theorem read_undoes_format (x : int2048) (hx : canonical x) :
    read (operator_out x) = x ∧ operator_eq (read (operator_out x)) x = true :=
  ⟨read_operator_out hx, (operator_eq_iff _ _).2 (read_operator_out hx)⟩

theorem read_undoes_format_witness :
    canonical ⟨[5, 1], true⟩ ∧ read (operator_out ⟨[5, 1], true⟩) = ⟨[5, 1], true⟩ :=
  ⟨by decide, (read_undoes_format ⟨[5, 1], true⟩ (by decide)).1⟩

/-- C19: for canonical `a` and `b`, every access `result.digits[i + j]` of the schoolbook
loops, the iterations taken for a remaining carry included, has `i + j` below
`a.size() + b.size()`, and every value of `cur` is below `2^63`; the loops leave the
buffer that `mulOuter` computes. -/
theorem schoolbook_in_bounds (a b : int2048) (ha : canonical a) (hb : canonical b) :
    (∀ e ∈ (mulOuterTraced b.digits a.digits 0
        (List.replicate (a.digits.length + b.digits.length) 0)).1,
      e.1 < a.digits.length + b.digits.length ∧ e.2 < 2 ^ 63) ∧
      (mulOuterTraced b.digits a.digits 0
        (List.replicate (a.digits.length + b.digits.length) 0)).2
        = mulOuter b.digits a.digits 0
            (List.replicate (a.digits.length + b.digits.length) 0) := by
  refine ⟨?_, mulOuterTraced_snd _ _ _ _⟩
  intro e he
  obtain ⟨h1, h2⟩ := mulOuterTraced_spec b.digits (a.digits.length + b.digits.length)
    hb.1.2.1 a.digits 0 (List.replicate (a.digits.length + b.digits.length) 0) ha.1.2.1
    (by omega) (by simp) (bounded_replicate_zero _) (fun k _ => getD_replicate_zero _ k) e he
  exact ⟨h1, lt_trans h2 base_square_lt⟩

theorem schoolbook_in_bounds_witness :
    canonical ⟨[999999999, 999999999], false⟩ ∧ canonical ⟨[999999999], true⟩ ∧
      ∀ e ∈ (mulOuterTraced [999999999] [999999999, 999999999] 0 (List.replicate (2 + 1) 0)).1,
        e.1 < 2 + 1 ∧ e.2 < 2 ^ 63 :=
  ⟨by decide, by decide,
    (schoolbook_in_bounds ⟨[999999999, 999999999], false⟩ ⟨[999999999], true⟩ (by decide)
      (by decide)).1⟩

/-- C20: for canonical operands that both have more than 50 limbs, each of the three
recursive calls of `multiplyAbs` is on operands whose larger limb count is below the
larger limb count of the current operands, and the recursion ends: within
`max(a.size(), b.size())` levels it returns a result. -/
theorem karatsuba_terminates (a b : int2048) (ha : canonical a) (hb : canonical b)
    (ha50 : KARATSUBA_THRESHOLD < a.digits.length)
    (hb50 : KARATSUBA_THRESHOLD < b.digits.length) :
    (max (lowPart a (max a.digits.length b.digits.length / 2)).digits.length
        (lowPart b (max a.digits.length b.digits.length / 2)).digits.length
      < max a.digits.length b.digits.length ∧
    max (highPart a (max a.digits.length b.digits.length / 2)).digits.length
        (highPart b (max a.digits.length b.digits.length / 2)).digits.length
      < max a.digits.length b.digits.length ∧
    max (addAbs (lowPart a (max a.digits.length b.digits.length / 2))
          (highPart a (max a.digits.length b.digits.length / 2))).digits.length
        (addAbs (lowPart b (max a.digits.length b.digits.length / 2))
          (highPart b (max a.digits.length b.digits.length / 2))).digits.length
      < max a.digits.length b.digits.length) ∧
    (∃ r, multiplyAbsAux (max a.digits.length b.digits.length) a b = some r) ∧
    (∀ fuel, multiplyAbsAux (fuel + 1) a b
      = match
          multiplyAbsAux fuel (lowPart a (max a.digits.length b.digits.length / 2))
            (lowPart b (max a.digits.length b.digits.length / 2)),
          multiplyAbsAux fuel (highPart a (max a.digits.length b.digits.length / 2))
            (highPart b (max a.digits.length b.digits.length / 2)),
          multiplyAbsAux fuel
            (addAbs (lowPart a (max a.digits.length b.digits.length / 2))
              (highPart a (max a.digits.length b.digits.length / 2)))
            (addAbs (lowPart b (max a.digits.length b.digits.length / 2))
              (highPart b (max a.digits.length b.digits.length / 2))) with
        | some z0, some z2, some z1 =>
          some (combine z0 z2 z1 (max a.digits.length b.digits.length / 2))
        | _, _, _ => none) := by
  unfold KARATSUBA_THRESHOLD at ha50 hb50
  refine ⟨karatsuba_sizes ha.1.2.1 hb.1.2.1 (by omega) (by omega), ?_, ?_⟩
  · obtain ⟨r, hr, _⟩ := multiplyAbsAux_spec _ a b ha.1.2.1 hb.1.2.1 (le_refl _)
    exact ⟨r, hr⟩
  · intro fuel
    exact multiplyAbsAux_recursive fuel a b (by unfold KARATSUBA_THRESHOLD; omega)
      (by unfold KARATSUBA_THRESHOLD; omega)

theorem karatsuba_terminates_witness :
    canonical ⟨List.replicate 51 7, false⟩ ∧ canonical ⟨List.replicate 60 9, true⟩ ∧
      KARATSUBA_THRESHOLD < (⟨List.replicate 51 7, false⟩ : int2048).digits.length ∧
      KARATSUBA_THRESHOLD < (⟨List.replicate 60 9, true⟩ : int2048).digits.length ∧
      ∃ r, multiplyAbsAux
        (max (⟨List.replicate 51 7, false⟩ : int2048).digits.length
          (⟨List.replicate 60 9, true⟩ : int2048).digits.length)
        ⟨List.replicate 51 7, false⟩ ⟨List.replicate 60 9, true⟩ = some r :=
  ⟨by decide, by decide, by decide, by decide,
    (karatsuba_terminates ⟨List.replicate 51 7, false⟩ ⟨List.replicate 60 9, true⟩
      (by decide) (by decide) (by decide) (by decide)).2.1⟩

end sjtu
